import Mathlib

/-!
Verification of the `StableContainer[N]` / `Profile[B]` implementation
(`remerkleable/stable_container.py`, EIP-7495 SSZ extension).

Two embeddings are developed:

* a codec model: a container value is abstracted to its list of per-field
  optional byte strings, and `serialize` / `deserialize` are translated
  statement-by-statement from the source; field types are abstracted to
  their size metadata (`is_fixed_byte_length`, `type_byte_length`,
  `min_byte_length`, `max_byte_length`), and a field value is identified
  with its SSZ byte serialization (the external View contract);

* a tree model: the Merkle backing (`PairNode(data, active_fields)`),
  gindex navigation, `stable_get` / `stable_set` and the Profile
  attribute accessors.
-/

/-- A byte string; each entry is one byte. -/
abbrev Bytes := List Nat

/-- Error sites of the Python code, one constructor per distinct raise site
(plus the failure modes of the external collaborators). -/
inductive Err where
  | scopeTooSmall
  | bvPadding
  | unknownField (i : Nat)
  | shortRead
  | fieldDecode
  | firstOffsetTooSmall
  | offsetOrder
  | sizeBounds
  | valueError
  | assertionError
  | navigationError
deriving DecidableEq, Repr

/-- Modelled from the spec: the size metadata of an SSZ view type, the part
of the external View contract the codec consumes (`is_fixed_byte_length`,
`type_byte_length`, `min_byte_length`, `max_byte_length`). -/
structure FTyp where
  isFixed : Bool
  fixedLen : Nat
  minLen : Nat
  maxLen : Nat
deriving DecidableEq, Repr

/-- Well-formedness of a field type: for a fixed-size SSZ type,
`min_byte_length = max_byte_length = type_byte_length`. -/
def FTyp.wf (t : FTyp) : Prop :=
  t.isFixed = true → (t.minLen = t.fixedLen ∧ t.maxLen = t.fixedLen)

instance (t : FTyp) : Decidable t.wf := by
  unfold FTyp.wf; infer_instance

/-- A byte string is a valid serialization for a field type when its length
is within the type's size bounds. -/
def FTyp.valid (t : FTyp) (bs : Bytes) : Prop :=
  t.minLen ≤ bs.length ∧ bs.length ≤ t.maxLen

instance (t : FTyp) (bs : Bytes) : Decidable (t.valid bs) := by
  unfold FTyp.valid; infer_instance

/-- Modelled from the spec: a view value is identified with its SSZ byte
string, so `View.serialize` emits exactly that byte string. -/
def fieldSerialize (bs : Bytes) : Bytes := bs

/-- Modelled from the spec: `View.deserialize(stream, scope)` reads `scope`
bytes and succeeds exactly when they form a valid serialization. -/
def fieldDeserialize (t : FTyp) (bs : Bytes) : Except Err Bytes :=
  if t.valid bs then .ok bs else .error .fieldDecode

/-- `ceil(n/8)`: the byte length of a `Bitvector[n]` (`Bitvector.type_byte_length`). -/
def byteLen (n : Nat) : Nat := (n + 7) / 8

/-- Little-endian base-256 decoding of a byte string
(`decode_offset` / bitvector unpacking). -/
def bytesToNatLE : Bytes → Nat
  | [] => 0
  | b :: r => b + 256 * bytesToNatLE r

/-- Little-endian base-256 encoding of `a` on exactly `k` bytes
(`encode_offset` / bitvector packing). -/
def natToBytesLE : Nat → Nat → Bytes
  | 0, _ => []
  | k + 1, a => a % 256 :: natToBytesLE k (a / 256)

/-- `OFFSET_BYTE_LENGTH` of the SSZ spec. -/
def OFFSET_BYTE_LENGTH : Nat := 4

/-- Reading `k` bytes from a stream: the bytes read and the rest, or a
short-read failure. -/
def readBytes (input : Bytes) (k : Nat) : Except Err (Bytes × Bytes) :=
  if k ≤ input.length then .ok (input.take k, input.drop k) else .error .shortRead

/-- The active-fields bitvector of a field map, as a natural number whose
bit `i` is set iff field `i` is present (`Bitvector[N]` with
`active_fields.set(findex, finput is not None)`, lines 76-90). -/
def activeOf : List (Option Bytes) → Nat
  | [] => 0
  | ov :: r => (if ov.isSome then 1 else 0) + 2 * activeOf r

/-- One parsed slot of the fixed section. -/
inductive Item where
  | absent
  | fixedVal (bs : Bytes)
  | dynOff (t : FTyp) (off : Nat)
deriving DecidableEq, Repr

/-- The fixed-section loop of `deserialize` (lines 229-239 / 535-549):
walk the fields in declaration order, skipping absent ones, reading fixed
values in place and recording 4-byte offsets for dynamic fields, while
accumulating `fixed_size`.  A slot is a field type together with its
presence flag. -/
def parseFixed : List (FTyp × Bool) → Bytes → Except Err (List Item × Nat × Bytes)
  | [], input => .ok ([], 0, input)
  | (t, present) :: rest, input =>
    if present then
      if t.isFixed then
        match readBytes input t.fixedLen with
        | .error e => .error e
        | .ok (bs, input1) =>
          match fieldDeserialize t bs with
          | .error e => .error e
          | .ok v =>
            match parseFixed rest input1 with
            | .error e => .error e
            | .ok (items, fsz, input2) => .ok (.fixedVal v :: items, t.fixedLen + fsz, input2)
      else
        match readBytes input OFFSET_BYTE_LENGTH with
        | .error e => .error e
        | .ok (obs, input1) =>
          match parseFixed rest input1 with
          | .error e => .error e
          | .ok (items, fsz, input2) =>
            .ok (.dynOff t (bytesToNatLE obs) :: items, OFFSET_BYTE_LENGTH + fsz, input2)
    else
      match parseFixed rest input with
      | .error e => .error e
      | .ok (items, fsz, input1) => .ok (.absent :: items, fsz, input1)

/-- The recorded dynamic fields, in order (`dyn_fields`). -/
def dynOf : List Item → List (FTyp × Nat)
  | [] => []
  | .dynOff t o :: rest => (t, o) :: dynOf rest
  | .absent :: rest => dynOf rest
  | .fixedVal _ :: rest => dynOf rest

/-- The first-offset check (lines 240-243 / 551-554): with dynamic fields
present, reject a first offset smaller than the computed fixed size. -/
def checkFirstOffset : List (FTyp × Nat) → Nat → Except Err Unit
  | [], _ => .ok ()
  | (_, off) :: _, fixedSize =>
    if off < fixedSize then .error .firstOffsetTooSmall else .ok ()

/-- The dynamic-section loop of `deserialize` (lines 244-255 / 555-566):
for each recorded offset, the next offset (or `scope` for the last) bounds
the field; reject decreasing offsets and sizes outside the type's bounds,
then read the implied number of bytes. -/
def readDyn : List (FTyp × Nat) → Nat → Bytes → Except Err (List Bytes × Bytes)
  | [], _, input => .ok ([], input)
  | (t, off) :: rest, scope, input =>
    let nextOff := match rest with
      | [] => scope
      | (_, off2) :: _ => off2
    if off > nextOff then .error .offsetOrder
    else
      let fsize := nextOff - off
      if t.minLen ≤ fsize ∧ fsize ≤ t.maxLen then
        match readBytes input fsize with
        | .error e => .error e
        | .ok (bs, input1) =>
          match fieldDeserialize t bs with
          | .error e => .error e
          | .ok v =>
            match readDyn rest scope input1 with
            | .error e => .error e
            | .ok (vs, input2) => .ok (v :: vs, input2)
      else .error .sizeBounds

/-- Assemble the final field map: absent slots yield `none`, fixed slots
their value, and dynamic slots consume the decoded dynamic values in
order (`field_values` keyed by declaration order). -/
def mergeItems : List Item → List Bytes → List (Option Bytes)
  | [], _ => []
  | .absent :: rest, ds => none :: mergeItems rest ds
  | .fixedVal bs :: rest, ds => some bs :: mergeItems rest ds
  | .dynOff _ _ :: rest, [] => none :: mergeItems rest []
  | .dynOff _ _ :: rest, d :: ds => some d :: mergeItems rest ds

/-- The shared body of `StableContainer.deserialize` and
`Profile.deserialize` after the bitvector prefix: fixed-section parse,
offset validation, dynamic-section parse, assembly. -/
def deserializeBody (slots : List (FTyp × Bool)) (input : Bytes) (scope : Nat) :
    Except Err (List (Option Bytes)) :=
  match parseFixed slots input with
  | .error e => .error e
  | .ok (items, fixedSize, input1) =>
    match checkFirstOffset (dynOf items) fixedSize with
    | .error e => .error e
    | .ok _ =>
      match readDyn (dynOf items) scope input1 with
      | .error e => .error e
      | .ok (dynVals, _) => .ok (mergeItems items dynVals)

/-- The first pass of `serialize` (lines 262-271 / 576-590): the total
fixed-section size of the present fields (`num_data_bytes` before any
dynamic data is appended). -/
def fixedTotal : List (FTyp × Option Bytes) → Nat
  | [] => 0
  | (_, none) :: rest => fixedTotal rest
  | (t, some _) :: rest =>
    (if t.isFixed then t.fixedLen else OFFSET_BYTE_LENGTH) + fixedTotal rest

/-- Whether any present field is dynamic (`has_dyn_fields`). -/
def hasDynFields : List (FTyp × Option Bytes) → Bool
  | [] => false
  | (_, none) :: rest => hasDynFields rest
  | (t, some _) :: rest => !t.isFixed || hasDynFields rest

/-- The second pass of `serialize` (lines 275-285 / 594-610): emit fixed
values and offsets into the fixed section, append dynamic serializations
to the side buffer (`temp_dyn_stream`), threading `num_data_bytes`.
Returns (fixed section, side buffer, final `num_data_bytes`). -/
def serializeFields : List (FTyp × Option Bytes) → Nat → Bytes × Bytes × Nat
  | [], ndb => ([], [], ndb)
  | (_, none) :: rest, ndb => serializeFields rest ndb
  | (t, some bs) :: rest, ndb =>
    if t.isFixed then
      let r := serializeFields rest ndb
      (fieldSerialize bs ++ r.1, r.2.1, r.2.2)
    else
      let r := serializeFields rest (ndb + (fieldSerialize bs).length)
      (natToBytesLE OFFSET_BYTE_LENGTH ndb ++ r.1, fieldSerialize bs ++ r.2.1, r.2.2)

/-- A StableContainer schema: capacity `N` and the declared field types in
order (field index = declaration position). -/
structure SCSchema where
  capN : Nat
  fields : List FTyp
deriving DecidableEq, Repr

/-- Schema well-formedness (`__init_subclass__`, lines 100-136): positive
capacity, no more fields than capacity, well-formed field types. -/
def SCSchema.wf (s : SCSchema) : Prop :=
  0 < s.capN ∧ s.fields.length ≤ s.capN ∧ ∀ t ∈ s.fields, t.wf

instance (s : SCSchema) : Decidable s.wf := by
  unfold SCSchema.wf; infer_instance

/-- A well-formed StableContainer value for a schema: one optional byte
string per declared field, present ones valid for their type. -/
def SCSchema.validValue (s : SCSchema) (v : List (Option Bytes)) : Prop :=
  v.length = s.fields.length ∧
    ∀ e ∈ s.fields.zip v, ∀ bs, e.2 = some bs → e.1.valid bs

instance (s : SCSchema) (v : List (Option Bytes)) : Decidable (s.validValue v) := by
  unfold SCSchema.validValue
  have : ∀ e : FTyp × Option Bytes, Decidable (∀ bs, e.2 = some bs → e.1.valid bs) := by
    intro e
    match h : e.2 with
    | none => exact isTrue (by intro bs hbs; simp [h] at hbs)
    | some bs0 =>
      by_cases hv : e.1.valid bs0
      · exact isTrue (by intro bs hbs; cases hbs; exact hv)
      · exact isFalse (by intro hall; exact hv (hall bs0 rfl))
  infer_instance

/-- `StableContainer.serialize` (lines 258-290): bitvector prefix, fixed
section with offsets, then the whole side buffer; returns the stream
output and the returned byte count. -/
def scSerialize (s : SCSchema) (v : List (Option Bytes)) : Bytes × Nat :=
  let af := activeOf v
  let pb := natToBytesLE (byteLen s.capN) af
  let es := s.fields.zip v
  let r := serializeFields es (fixedTotal es)
  (pb ++ r.1 ++ r.2.1, pb.length + r.2.2)

/-- Invariant A2 check of `deserialize` (lines 222-224): every active bit
at an index in `[field_count, N)` is an unknown field. -/
def checkUnknownBits (af : Nat) (fieldCount n : Nat) : Except Err Unit :=
  match (List.range (n - fieldCount)).find? (fun j => af.testBit (fieldCount + j)) with
  | some j => .error (.unknownField (fieldCount + j))
  | none => .ok ()

/-- The presence slots of a StableContainer schema under an active-fields
bitvector: field at running index `i` is present iff bit `i` is set
(`active_fields.get(findex)`). -/
def scSlots : List FTyp → Nat → Nat → List (FTyp × Bool)
  | [], _, _ => []
  | t :: rest, af, i => (t, af.testBit i) :: scSlots rest af (i + 1)

/-- `StableContainer.deserialize` (lines 214-256): scope check, bitvector
prefix (rejecting nonzero padding bits, per the wire format), unknown-bit
check, then the shared body with the remaining scope. -/
def scDeserialize (s : SCSchema) (input : Bytes) (scope : Nat) :
    Except Err (List (Option Bytes)) :=
  let np := byteLen s.capN
  if scope < np then .error .scopeTooSmall
  else
    match readBytes input np with
    | .error e => .error e
    | .ok (pb, input1) =>
      let af := bytesToNatLE pb
      if af < 2 ^ s.capN then
        match checkUnknownBits af s.fields.length s.capN with
        | .error e => .error e
        | .ok _ => deserializeBody (scSlots s.fields af 0) input1 (scope - np)
      else .error .bvPadding

/-- `StableContainer.min_byte_length` (lines 149-151): just the bitvector. -/
def scMinByteLength (s : SCSchema) : Nat := byteLen s.capN

/-- The field sum of `max_byte_length` (lines 154-160): an offset for each
dynamic field plus every field's `max_byte_length`. -/
def maxTotal : List FTyp → Nat
  | [] => 0
  | t :: rest => (if t.isFixed then 0 else OFFSET_BYTE_LENGTH) + t.maxLen + maxTotal rest

/-- `StableContainer.max_byte_length` (lines 153-160). -/
def scMaxByteLength (s : SCSchema) : Nat := byteLen s.capN + maxTotal s.fields

/-- A Profile schema entry: field type and its optional flag (the base
index does not affect the codec; declaration order is kept). -/
structure PField where
  typ : FTyp
  fopt : Bool
deriving DecidableEq, Repr

/-- A Profile schema: declared fields in order.  `baseIsSC = false` models
a plain `Container` base, in which case no field may be optional. -/
structure PSchema where
  baseIsSC : Bool
  fieldsP : List PField
deriving DecidableEq, Repr

/-- The optional-field count `cls._o` (lines 350-386). -/
def countOpt : List PField → Nat
  | [] => 0
  | f :: rest => (if f.fopt then 1 else 0) + countOpt rest

/-- Profile schema well-formedness (`__init_subclass__`, lines 347-396):
well-formed field types, and `Optional` only over a StableContainer base. -/
def PSchema.wf (s : PSchema) : Prop :=
  (∀ f ∈ s.fieldsP, f.typ.wf) ∧ (s.baseIsSC = false → ∀ f ∈ s.fieldsP, f.fopt = false)

instance (s : PSchema) : Decidable s.wf := by
  unfold PSchema.wf; infer_instance

/-- A well-formed Profile value: one optional byte string per declared
field, required fields present, present fields valid (Invariant B1 at the
value level). -/
def pvWF : List PField → List (Option Bytes) → Prop
  | [], [] => True
  | f :: fr, ov :: vr =>
    (f.fopt = false → ov.isSome = true) ∧
      (∀ bs, ov = some bs → f.typ.valid bs) ∧ pvWF fr vr
  | _, _ => False

instance : ∀ (fs : List PField) (v : List (Option Bytes)), Decidable (pvWF fs v)
  | [], [] => isTrue trivial
  | [], _ :: _ => isFalse (fun h => h)
  | _ :: _, [] => isFalse (fun h => h)
  | f :: fr, ov :: vr => by
    have hv : Decidable (∀ bs, ov = some bs → f.typ.valid bs) := by
      match ov with
      | none => exact isTrue (by intro bs hbs; cases hbs)
      | some bs0 =>
        by_cases hval : f.typ.valid bs0
        · exact isTrue (by intro bs hbs; cases hbs; exact hval)
        · exact isFalse (by intro hall; exact hval (hall bs0 rfl))
    have ih : Decidable (pvWF fr vr) := instDecidablePvWF fr vr
    unfold pvWF; infer_instance

/-- The optional-fields bitvector of a Profile value (`optional_fields`,
lines 459-471): bit `k` is set iff the `k`-th optional field (declaration
order) is present. -/
def optBitsOf : List PField → List (Option Bytes) → Nat
  | f :: fr, ov :: vr =>
    if f.fopt then (if ov.isSome then 1 else 0) + 2 * optBitsOf fr vr
    else optBitsOf fr vr
  | _, _ => 0

/-- The per-field entries a Profile value serializes: for a well-formed
value, presence as consulted by `serialize` (the active bit for a
StableContainer base, unconditional for a plain base) equals `isSome`. -/
def pEntries (s : PSchema) (v : List (Option Bytes)) : List (FTyp × Option Bytes) :=
  (s.fieldsP.map PField.typ).zip v

/-- `Profile.serialize` (lines 569-615): optional-fields prefix when
`o > 0`, fixed section with offsets, then the side buffer truncated to
`num_data_bytes` (`temp_dyn_stream.read(num_data_bytes)`, line 613). -/
def pSerialize (s : PSchema) (v : List (Option Bytes)) : Bytes × Nat :=
  let o := countOpt s.fieldsP
  let pb := if 0 < o then natToBytesLE (byteLen o) (optBitsOf s.fieldsP v) else []
  let es := pEntries s v
  let r := serializeFields es (fixedTotal es)
  (pb ++ r.1 ++ r.2.1.take r.2.2, pb.length + r.2.2)

/-- The presence slots of a Profile schema under an optional-fields
bitvector consumed positionally (lines 535-541): required fields are
always present, optional field number `oi` is present iff bit `oi` is
set. -/
def pSlots : List PField → Nat → Nat → List (FTyp × Bool)
  | [], _, _ => []
  | f :: rest, ob, oi =>
    if f.fopt then (f.typ, ob.testBit oi) :: pSlots rest ob (oi + 1)
    else (f.typ, true) :: pSlots rest ob oi

/-- `Profile.deserialize` (lines 522-567): optional-fields prefix when
`o > 0` (rejecting nonzero padding bits, per the wire format), then the
shared body with the remaining scope. -/
def pDeserialize (s : PSchema) (input : Bytes) (scope : Nat) :
    Except Err (List (Option Bytes)) :=
  let o := countOpt s.fieldsP
  if 0 < o then
    let np := byteLen o
    if scope < np then .error .scopeTooSmall
    else
      match readBytes input np with
      | .error e => .error e
      | .ok (pb, input1) =>
        let ob := bytesToNatLE pb
        if ob < 2 ^ o then deserializeBody (pSlots s.fieldsP ob 0) input1 (scope - np)
        else .error .bvPadding
  else deserializeBody (pSlots s.fieldsP 0 0) input scope

/-- The field sum of `Profile.min_byte_length` (lines 421-430): optional
fields contribute nothing; each required field contributes an offset if
dynamic plus its `min_byte_length`. -/
def minTotalP : List PField → Nat
  | [] => 0
  | f :: rest =>
    if f.fopt then minTotalP rest
    else (if f.typ.isFixed then 0 else OFFSET_BYTE_LENGTH) + f.typ.minLen + minTotalP rest

/-- `Profile.min_byte_length` (lines 421-430). -/
def pMinByteLength (s : PSchema) : Nat :=
  (if 0 < countOpt s.fieldsP then byteLen (countOpt s.fieldsP) else 0) + minTotalP s.fieldsP

/-- `Profile.max_byte_length` (lines 432-439). -/
def pMaxByteLength (s : PSchema) : Nat :=
  (if 0 < countOpt s.fieldsP then byteLen (countOpt s.fieldsP) else 0) +
    maxTotal (s.fieldsP.map PField.typ)

/-! ### Byte-level lemmas -/

theorem natToBytesLE_length (k a : Nat) : (natToBytesLE k a).length = k := by
  induction k generalizing a with
  | zero => rfl
  | succ k ih => simp [natToBytesLE, ih]

theorem bytesToNatLE_natToBytesLE {k a : Nat} (h : a < 256 ^ k) :
    bytesToNatLE (natToBytesLE k a) = a := by
  induction k generalizing a with
  | zero =>
    simp [natToBytesLE, bytesToNatLE]
    omega
  | succ k ih =>
    have hdiv : a / 256 < 256 ^ k := by
      rw [Nat.div_lt_iff_lt_mul (by omega)]
      calc a < 256 ^ (k + 1) := h
        _ = 256 ^ k * 256 := by ring
    simp [natToBytesLE, bytesToNatLE, ih hdiv]
    omega

theorem two_pow_le_256_pow_byteLen (n : Nat) : 2 ^ n ≤ 256 ^ byteLen n := by
  have h8 : (256 : Nat) = 2 ^ 8 := by norm_num
  rw [h8, ← pow_mul]
  apply Nat.pow_le_pow_right (by norm_num)
  unfold byteLen
  omega

theorem readBytes_append (pre rest : Bytes) :
    readBytes (pre ++ rest) pre.length = .ok (pre, rest) := by
  unfold readBytes
  rw [if_pos (by simp), List.take_left, List.drop_left]

theorem readBytes_append_of_length {pre : Bytes} (rest : Bytes) {k : Nat}
    (h : pre.length = k) : readBytes (pre ++ rest) k = .ok (pre, rest) := by
  subst h; exact readBytes_append pre rest

/-! ### Active-fields bitvector lemmas -/

theorem activeOf_lt (v : List (Option Bytes)) : activeOf v < 2 ^ v.length := by
  induction v with
  | nil => simp [activeOf]
  | cons ov r ih =>
    simp only [activeOf, List.length_cons, pow_succ]
    by_cases h : ov.isSome <;> (simp [h]; omega)

theorem activeOf_testBit_ge {v : List (Option Bytes)} {i : Nat}
    (h : v.length ≤ i) : (activeOf v).testBit i = false := by
  apply Nat.testBit_lt_two_pow
  calc activeOf v < 2 ^ v.length := activeOf_lt v
    _ ≤ 2 ^ i := Nat.pow_le_pow_right (by norm_num) h

theorem activeOf_cons_div (ov : Option Bytes) (r : List (Option Bytes)) :
    activeOf (ov :: r) / 2 = activeOf r := by
  by_cases h : ov.isSome
  · simp [activeOf, h]
    omega
  · simp [activeOf, h]

theorem activeOf_cons_testBit_zero (ov : Option Bytes) (r : List (Option Bytes)) :
    (activeOf (ov :: r)).testBit 0 = ov.isSome := by
  by_cases h : ov.isSome <;>
    simp [activeOf, h, Nat.testBit_zero, Nat.add_mul_mod_self_left]

/-- The slots consumed at a shifted bit index equal the slots of the
shifted bitvector. -/
theorem scSlots_shift (fs : List FTyp) (af i : Nat) :
    scSlots fs af (i + 1) = scSlots fs (af / 2) i := by
  induction fs generalizing i with
  | nil => rfl
  | cons t rest ih =>
    simp only [scSlots, Nat.testBit_add_one, ih]

/-- The slots a StableContainer deserializer derives from the bitvector a
well-formed value serializes are exactly the value's presence flags. -/
theorem scSlots_activeOf (fs : List FTyp) (v : List (Option Bytes))
    (h : v.length = fs.length) :
    scSlots fs (activeOf v) 0 = (fs.zip v).map (fun e => (e.1, e.2.isSome)) := by
  induction fs generalizing v with
  | nil => rfl
  | cons t rest ih =>
    match v, h with
    | ov :: vr, h =>
      simp only [scSlots, List.zip_cons_cons, List.map_cons]
      rw [activeOf_cons_testBit_zero, scSlots_shift, activeOf_cons_div,
        ih vr (by simpa using h)]

/-! ### Serializer structure lemmas -/

/-- The per-field entries of a well-formed codec value: well-formed types,
valid present byte strings. -/
def entriesOK (es : List (FTyp × Option Bytes)) : Prop :=
  ∀ e ∈ es, e.1.wf ∧ ∀ bs, e.2 = some bs → e.1.valid bs

/-- The items the fixed-section parse of a re-read encoding produces,
with the running offset accumulator starting at `ndb`. -/
def expectedItems : List (FTyp × Option Bytes) → Nat → List Item
  | [], _ => []
  | (_, none) :: rest, ndb => .absent :: expectedItems rest ndb
  | (t, some bs) :: rest, ndb =>
    if t.isFixed then .fixedVal bs :: expectedItems rest ndb
    else .dynOff t ndb :: expectedItems rest (ndb + bs.length)

/-- The present dynamic fields of an entry list, in order. -/
def dynEntries : List (FTyp × Option Bytes) → List (FTyp × Bytes)
  | [] => []
  | (_, none) :: rest => dynEntries rest
  | (t, some bs) :: rest =>
    if t.isFixed then dynEntries rest else (t, bs) :: dynEntries rest

/-- Attach cumulative offsets to a dynamic-field list. -/
def withOffsets : List (FTyp × Bytes) → Nat → List (FTyp × Nat)
  | [], _ => []
  | (t, bs) :: rest, off => (t, off) :: withOffsets rest (off + bs.length)

/-- Total byte length of a dynamic-field list. -/
def dynTotal : List (FTyp × Bytes) → Nat
  | [] => 0
  | (_, bs) :: rest => bs.length + dynTotal rest

/-- Concatenation of a dynamic-field list (the side buffer contents). -/
def joinBytes : List (FTyp × Bytes) → Bytes
  | [] => []
  | (_, bs) :: rest => bs ++ joinBytes rest

theorem serializeFields_ndb (es : List (FTyp × Option Bytes)) (ndb : Nat) :
    (serializeFields es ndb).2.2 = ndb + dynTotal (dynEntries es) := by
  induction es generalizing ndb with
  | nil => simp [serializeFields, dynEntries, dynTotal]
  | cons e rest ih =>
    match e with
    | (t, none) => simpa [serializeFields, dynEntries] using ih ndb
    | (t, some bs) =>
      by_cases hf : t.isFixed
      · simp [serializeFields, dynEntries, dynTotal, hf, ih, fieldSerialize]
      · simp [serializeFields, dynEntries, dynTotal, hf, ih, fieldSerialize]
        omega

theorem serializeFields_dyn (es : List (FTyp × Option Bytes)) (ndb : Nat) :
    (serializeFields es ndb).2.1 = joinBytes (dynEntries es) := by
  induction es generalizing ndb with
  | nil => simp [serializeFields, dynEntries, joinBytes]
  | cons e rest ih =>
    match e with
    | (t, none) => simpa [serializeFields, dynEntries] using ih ndb
    | (t, some bs) =>
      by_cases hf : t.isFixed <;>
        simp [serializeFields, dynEntries, joinBytes, hf, ih, fieldSerialize]

theorem serializeFields_fst_length (es : List (FTyp × Option Bytes)) (ndb : Nat)
    (hok : entriesOK es) : (serializeFields es ndb).1.length = fixedTotal es := by
  induction es generalizing ndb with
  | nil => simp [serializeFields, fixedTotal]
  | cons e rest ih =>
    have hokr : entriesOK rest := fun x hx => hok x (List.mem_cons_of_mem e hx)
    match e with
    | (t, none) => simpa [serializeFields, fixedTotal] using ih ndb hokr
    | (t, some bs) =>
      have he := hok (t, some bs) (List.mem_cons_self _ _)
      dsimp only at he
      have hlen : t.isFixed = true → bs.length = t.fixedLen := by
        intro hf
        have hwf := he.1 hf
        have hv := he.2 bs rfl
        unfold FTyp.wf at hwf
        unfold FTyp.valid at hv
        omega
      by_cases hf : t.isFixed
      · simp [serializeFields, fixedTotal, hf, ih _ hokr, fieldSerialize, hlen hf]
      · simp [serializeFields, fixedTotal, hf, ih _ hokr, fieldSerialize,
          natToBytesLE_length, OFFSET_BYTE_LENGTH]

theorem dynOf_expectedItems (es : List (FTyp × Option Bytes)) (ndb : Nat) :
    dynOf (expectedItems es ndb) = withOffsets (dynEntries es) ndb := by
  induction es generalizing ndb with
  | nil => simp [expectedItems, dynOf, dynEntries, withOffsets]
  | cons e rest ih =>
    match e with
    | (t, none) => simpa [expectedItems, dynOf, dynEntries] using ih ndb
    | (t, some bs) =>
      by_cases hf : t.isFixed <;>
        simp [expectedItems, dynOf, dynEntries, withOffsets, hf, ih]

theorem mergeItems_expectedItems (es : List (FTyp × Option Bytes)) (ndb : Nat) :
    mergeItems (expectedItems es ndb) ((dynEntries es).map Prod.snd) =
      es.map Prod.snd := by
  induction es generalizing ndb with
  | nil => simp [expectedItems, mergeItems, dynEntries]
  | cons e rest ih =>
    match e with
    | (t, none) => simpa [expectedItems, mergeItems, dynEntries] using ih ndb
    | (t, some bs) =>
      by_cases hf : t.isFixed <;>
        simp [expectedItems, mergeItems, dynEntries, hf, ih]

/-! ### Fixed-section parse correctness -/

/-- Re-reading the fixed section produced by `serializeFields` recovers
the fixed values and the written offsets, computes the same fixed size,
and leaves exactly the trailing stream. -/
theorem parseFixed_serializeFields (es : List (FTyp × Option Bytes)) (ndb : Nat)
    (extra : Bytes) (hok : entriesOK es)
    (hoff : ndb + dynTotal (dynEntries es) < 2 ^ 32) :
    parseFixed (es.map (fun e => (e.1, e.2.isSome))) ((serializeFields es ndb).1 ++ extra) =
      .ok (expectedItems es ndb, fixedTotal es, extra) := by
  induction es generalizing ndb with
  | nil => simp [parseFixed, serializeFields, expectedItems, fixedTotal]
  | cons e rest ih =>
    have hokr : entriesOK rest := fun x hx => hok x (List.mem_cons_of_mem e hx)
    match e with
    | (t, none) =>
      have ihr := ih ndb hokr (by simpa [dynEntries] using hoff)
      simp only [serializeFields, List.map_cons, Option.isSome_none, parseFixed,
        Bool.false_eq_true, if_false, ihr, expectedItems, fixedTotal]
    | (t, some bs) =>
      have he := hok (t, some bs) (List.mem_cons_self _ _)
      dsimp only at he
      have hv : t.valid bs := he.2 bs rfl
      by_cases hf : t.isFixed
      · have hlen : bs.length = t.fixedLen := by
          have hwf := he.1 hf
          unfold FTyp.wf at hwf
          unfold FTyp.valid at hv
          omega
        have ihr := ih ndb hokr (by simpa [dynEntries, hf] using hoff)
        simp only [serializeFields, expectedItems, fixedTotal, List.map_cons, hf,
          if_true, Option.isSome_some, parseFixed, fieldSerialize]
        rw [List.append_assoc, readBytes_append_of_length _ hlen]
        simp only [fieldDeserialize, if_pos hv, ihr]
      · have hndb : ndb < 2 ^ 32 := by
          have : dynTotal (dynEntries ((t, some bs) :: rest)) =
              bs.length + dynTotal (dynEntries rest) := by
            simp [dynEntries, hf, dynTotal]
          omega
        have ihr := ih (ndb + bs.length) hokr (by
          have : dynTotal (dynEntries ((t, some bs) :: rest)) =
              bs.length + dynTotal (dynEntries rest) := by
            simp [dynEntries, hf, dynTotal]
          omega)
        simp only [serializeFields, expectedItems, fixedTotal, List.map_cons, hf,
          if_false, if_true, Bool.false_eq_true, Option.isSome_some, parseFixed,
          fieldSerialize]
        rw [List.append_assoc, readBytes_append_of_length _ (natToBytesLE_length _ _)]
        have hb : bytesToNatLE (natToBytesLE OFFSET_BYTE_LENGTH ndb) = ndb :=
          bytesToNatLE_natToBytesLE (by norm_num [OFFSET_BYTE_LENGTH]; omega)
        simp only [ihr, hb]

/-! ### Dynamic-section parse correctness -/

/-- Re-reading the side buffer under the offsets written for it recovers
exactly the dynamic field values and leaves the trailing stream. -/
theorem readDyn_withOffsets (ds : List (FTyp × Bytes)) (start : Nat) (extra : Bytes)
    (hvalid : ∀ e ∈ ds, e.1.valid e.2) :
    readDyn (withOffsets ds start) (start + dynTotal ds) (joinBytes ds ++ extra) =
      .ok (ds.map Prod.snd, extra) := by
  induction ds generalizing start with
  | nil => simp [withOffsets, readDyn, joinBytes, dynTotal]
  | cons d rest ih =>
    match d with
    | (t, bs) =>
      have hv : t.valid bs := hvalid (t, bs) (List.mem_cons_self _ _)
      have hvr : ∀ e ∈ rest, e.1.valid e.2 :=
        fun x hx => hvalid x (List.mem_cons_of_mem _ hx)
      have hnext : (match withOffsets rest (start + bs.length) with
          | [] => start + dynTotal ((t, bs) :: rest)
          | (_, off2) :: _ => off2) = start + bs.length := by
        match rest with
        | [] => simp [withOffsets, dynTotal]
        | (t2, bs2) :: r2 => simp [withOffsets]
      simp only [withOffsets, readDyn, hnext]
      rw [if_neg (by omega)]
      have hfs : start + bs.length - start = bs.length := by omega
      rw [if_pos (by unfold FTyp.valid at hv; omega)]
      simp only [joinBytes, hfs, List.append_assoc]
      rw [readBytes_append_of_length _ rfl]
      simp only [fieldDeserialize, if_pos hv]
      have ihr := ih (start + bs.length) hvr
      have harith : start + bs.length + dynTotal rest =
          start + dynTotal ((t, bs) :: rest) := by
        simp [dynTotal]; omega
      rw [harith] at ihr
      simp only [ihr, List.map_cons]

/-- Present dynamic fields of a well-formed entry list are valid. -/
theorem dynEntries_valid : ∀ (es : List (FTyp × Option Bytes)), entriesOK es →
    ∀ e ∈ dynEntries es, e.1.valid e.2 := by
  intro es
  induction es with
  | nil =>
    intro _ e hmem
    simp [dynEntries] at hmem
  | cons x rest ih =>
    intro hok e hmem
    have hokr : entriesOK rest := fun y hy => hok y (List.mem_cons_of_mem x hy)
    obtain ⟨t, ov⟩ := x
    match ov with
    | none =>
      exact ih hokr e (by simpa [dynEntries] using hmem)
    | some bs =>
      by_cases hf : t.isFixed
      · exact ih hokr e (by simpa [dynEntries, hf] using hmem)
      · simp only [dynEntries, hf, Bool.false_eq_true, if_false] at hmem
        rcases List.mem_cons.mp hmem with heq | hm
        · subst heq
          have he := hok (t, some bs) (List.mem_cons_self _ _)
          exact he.2 bs rfl
        · exact ih hokr e hm

/-! ### Round trip of the shared deserializer body -/

theorem deserializeBody_roundtrip (es : List (FTyp × Option Bytes))
    (hok : entriesOK es)
    (hoff : fixedTotal es + dynTotal (dynEntries es) < 2 ^ 32) :
    deserializeBody (es.map (fun e => (e.1, e.2.isSome)))
      ((serializeFields es (fixedTotal es)).1 ++ (serializeFields es (fixedTotal es)).2.1)
      ((serializeFields es (fixedTotal es)).2.2) =
      .ok (es.map Prod.snd) := by
  have hpf := parseFixed_serializeFields es (fixedTotal es)
    (serializeFields es (fixedTotal es)).2.1 hok hoff
  have hdyn := serializeFields_dyn es (fixedTotal es)
  have hndb := serializeFields_ndb es (fixedTotal es)
  have hcfo : checkFirstOffset (withOffsets (dynEntries es) (fixedTotal es))
      (fixedTotal es) = .ok () := by
    match dynEntries es with
    | [] => simp [withOffsets, checkFirstOffset]
    | (t, bs) :: r => simp [withOffsets, checkFirstOffset]
  have hrd := readDyn_withOffsets (dynEntries es) (fixedTotal es) [] (dynEntries_valid es hok)
  rw [List.append_nil] at hrd
  rw [hdyn] at hpf
  simp only [deserializeBody, hdyn, hndb, hpf, dynOf_expectedItems, hcfo, hrd,
    mergeItems_expectedItems]

/-! ### StableContainer round trip -/

theorem checkUnknownBits_ok {af fc : Nat} (n : Nat)
    (h : ∀ j, fc ≤ j → af.testBit j = false) :
    checkUnknownBits af fc n = .ok () := by
  have hnone : (List.range (n - fc)).find? (fun j => af.testBit (fc + j)) = none := by
    rw [List.find?_eq_none]
    intro x _
    simp [h (fc + x) (Nat.le_add_right _ _)]
  simp [checkUnknownBits, hnone]

theorem scSerialize_deserialize (s : SCSchema) (v : List (Option Bytes))
    (hs : s.wf) (hv : s.validValue v)
    (hbound : (scSerialize s v).2 < 2 ^ 32) :
    scDeserialize s (scSerialize s v).1 (scSerialize s v).2 = .ok v := by
  obtain ⟨hpos, hflen, hwf⟩ := hs
  obtain ⟨hvlen, hvval⟩ := hv
  have hok : entriesOK (s.fields.zip v) := by
    intro e hmem
    obtain ⟨t, ov⟩ := e
    exact ⟨hwf t (List.of_mem_zip hmem).1, fun bs hbs => hvval (t, ov) hmem bs hbs⟩
  have hndb := serializeFields_ndb (s.fields.zip v) (fixedTotal (s.fields.zip v))
  have hcount : (scSerialize s v).2 =
      byteLen s.capN + (serializeFields (s.fields.zip v) (fixedTotal (s.fields.zip v))).2.2 := by
    simp [scSerialize, natToBytesLE_length]
  have hoff : fixedTotal (s.fields.zip v) + dynTotal (dynEntries (s.fields.zip v)) < 2 ^ 32 := by
    rw [hcount, hndb] at hbound
    omega
  have houtput : (scSerialize s v).1 =
      natToBytesLE (byteLen s.capN) (activeOf v) ++
        ((serializeFields (s.fields.zip v) (fixedTotal (s.fields.zip v))).1 ++
          (serializeFields (s.fields.zip v) (fixedTotal (s.fields.zip v))).2.1) := by
    simp [scSerialize, List.append_assoc]
  have haf_lt : activeOf v < 2 ^ s.capN :=
    lt_of_lt_of_le (activeOf_lt v)
      (Nat.pow_le_pow_right (by norm_num) (hvlen ▸ hflen))
  have hafpb : bytesToNatLE (natToBytesLE (byteLen s.capN) (activeOf v)) = activeOf v :=
    bytesToNatLE_natToBytesLE (lt_of_lt_of_le haf_lt (two_pow_le_256_pow_byteLen s.capN))
  have hrb := readBytes_append_of_length
    ((serializeFields (s.fields.zip v) (fixedTotal (s.fields.zip v))).1 ++
      (serializeFields (s.fields.zip v) (fixedTotal (s.fields.zip v))).2.1)
    (natToBytesLE_length (byteLen s.capN) (activeOf v))
  have hcub : checkUnknownBits (activeOf v) s.fields.length s.capN = .ok () :=
    checkUnknownBits_ok s.capN (fun j hj => activeOf_testBit_ge (hvlen ▸ hj))
  have hslots := scSlots_activeOf s.fields v hvlen
  have hbody := deserializeBody_roundtrip (s.fields.zip v) hok hoff
  have hsnd : (s.fields.zip v).map Prod.snd = v :=
    List.map_snd_zip s.fields v (le_of_eq hvlen)
  have hif1 : ¬ ((scSerialize s v).2 < byteLen s.capN) := by
    rw [hcount]
    omega
  rw [houtput]
  simp only [scDeserialize, if_neg hif1, hrb, hafpb, if_pos haf_lt, hcub, hslots,
    hcount, Nat.add_sub_cancel_left, hbody, hsnd]
  rw [if_neg (by omega)]

/-! ### Profile round trip -/

theorem bitCons_testBit_zero (b : Bool) (m : Nat) :
    ((if b then 1 else 0) + 2 * m).testBit 0 = b := by
  cases b <;> simp [Nat.testBit_zero, Nat.add_mul_mod_self_left]

theorem bitCons_div_two (b : Bool) (m : Nat) :
    ((if b then 1 else 0) + 2 * m) / 2 = m := by
  cases b
  · simp
  · simp
    omega

theorem joinBytes_length (ds : List (FTyp × Bytes)) :
    (joinBytes ds).length = dynTotal ds := by
  induction ds with
  | nil => simp [joinBytes, dynTotal]
  | cons d rest ih =>
    obtain ⟨t, bs⟩ := d
    simp [joinBytes, dynTotal, ih]

/-- The side buffer never exceeds the final `num_data_bytes`, which also
counts the fixed section. -/
theorem serializeFields_dyn_length_le (es : List (FTyp × Option Bytes)) (ndb : Nat) :
    (serializeFields es ndb).2.1.length ≤ (serializeFields es ndb).2.2 := by
  rw [serializeFields_dyn, serializeFields_ndb, joinBytes_length]
  omega

theorem pvWF_length : ∀ (fs : List PField) (v : List (Option Bytes)),
    pvWF fs v → v.length = fs.length := by
  intro fs
  induction fs with
  | nil =>
    intro v hv
    match v with
    | [] => rfl
    | _ :: _ => exact absurd hv (by simp [pvWF])
  | cons f rest ih =>
    intro v hv
    match v with
    | [] => exact absurd hv (by simp [pvWF])
    | ov :: vr =>
      have := ih vr hv.2.2
      simp [this]

theorem countOpt_zero_all_required {fs : List PField} (h : countOpt fs = 0) :
    ∀ f ∈ fs, f.fopt = false := by
  induction fs with
  | nil => intro f hf; simp at hf
  | cons x rest ih =>
    intro f hf
    simp only [countOpt] at h
    rcases List.mem_cons.mp hf with heq | hm
    · subst heq
      by_cases hx : f.fopt
      · rw [if_pos hx] at h; omega
      · simpa using hx
    · exact ih (by omega) f hm

theorem optBitsOf_of_countOpt_zero : ∀ (fs : List PField) (v : List (Option Bytes)),
    countOpt fs = 0 → optBitsOf fs v = 0 := by
  intro fs
  induction fs with
  | nil => intro v _; cases v <;> simp [optBitsOf]
  | cons f rest ih =>
    intro v h
    have hfopt : f.fopt = false :=
      countOpt_zero_all_required h f (List.mem_cons_self _ _)
    have hrest : countOpt rest = 0 := by
      simp only [countOpt, hfopt, Bool.false_eq_true, if_false] at h
      omega
    match v with
    | [] => simp [optBitsOf]
    | ov :: vr => simp [optBitsOf, hfopt, ih vr hrest]

theorem optBitsOf_lt : ∀ (fs : List PField) (v : List (Option Bytes)),
    optBitsOf fs v < 2 ^ countOpt fs := by
  intro fs
  induction fs with
  | nil => intro v; cases v <;> simp [optBitsOf]
  | cons f rest ih =>
    intro v
    match v with
    | [] => simp [optBitsOf, Nat.pos_pow_of_pos]
    | ov :: vr =>
      by_cases hf : f.fopt
      · have := ih vr
        simp only [optBitsOf, countOpt, hf, if_true, pow_add, pow_one]
        by_cases hs : ov.isSome <;> (simp [hs]; omega)
      · have := ih vr
        simp only [optBitsOf, countOpt, hf, Bool.false_eq_true, if_false]
        simpa using this

theorem pSlots_shift (fs : List PField) (ob oi : Nat) :
    pSlots fs ob (oi + 1) = pSlots fs (ob / 2) oi := by
  induction fs generalizing oi with
  | nil => rfl
  | cons f rest ih =>
    by_cases hf : f.fopt <;> simp [pSlots, hf, Nat.testBit_add_one, ih]

/-- The slots a Profile deserializer derives from the optional-fields
bitvector a well-formed value serializes are exactly the value's presence
flags. -/
theorem pSlots_optBitsOf : ∀ (fs : List PField) (v : List (Option Bytes)),
    pvWF fs v →
    pSlots fs (optBitsOf fs v) 0 =
      ((fs.map PField.typ).zip v).map (fun e => (e.1, e.2.isSome)) := by
  intro fs
  induction fs with
  | nil =>
    intro v hv
    match v with
    | [] => rfl
    | _ :: _ => exact absurd hv (by simp [pvWF])
  | cons f rest ih =>
    intro v hv
    match v with
    | [] => exact absurd hv (by simp [pvWF])
    | ov :: vr =>
      obtain ⟨hreq, _, hrest⟩ := hv
      by_cases hf : f.fopt
      · simp only [pSlots, optBitsOf, hf, if_true, List.map_cons, List.zip_cons_cons]
        rw [bitCons_testBit_zero, pSlots_shift, bitCons_div_two, ih vr hrest]
      · have hsome : ov.isSome = true := hreq (by simpa using hf)
        simp only [pSlots, optBitsOf, hf, Bool.false_eq_true, if_false, List.map_cons,
          List.zip_cons_cons, hsome]
        rw [ih vr hrest]

/-- Entries of a well-formed Profile value are well-formed and valid. -/
theorem pEntries_ok : ∀ (fs : List PField) (v : List (Option Bytes)),
    (∀ f ∈ fs, f.typ.wf) → pvWF fs v →
    entriesOK ((fs.map PField.typ).zip v) := by
  intro fs
  induction fs with
  | nil =>
    intro v _ _ e hmem
    simp at hmem
  | cons f rest ih =>
    intro v hwf hv e hmem
    match v with
    | [] => exact absurd hv (by simp [pvWF])
    | ov :: vr =>
      obtain ⟨_, hval, hrest⟩ := hv
      simp only [List.map_cons, List.zip_cons_cons, List.mem_cons] at hmem
      rcases hmem with heq | hm
      · subst heq
        exact ⟨hwf f (List.mem_cons_self _ _), fun bs hbs => hval bs hbs⟩
      · exact ih vr (fun g hg => hwf g (List.mem_cons_of_mem _ hg)) hrest e hm

theorem pSerialize_deserialize (s : PSchema) (v : List (Option Bytes))
    (hs : s.wf) (hv : pvWF s.fieldsP v)
    (hbound : (pSerialize s v).2 < 2 ^ 32) :
    pDeserialize s (pSerialize s v).1 (pSerialize s v).2 = .ok v := by
  obtain ⟨hwf, _⟩ := hs
  have hvlen := pvWF_length s.fieldsP v hv
  have hok : entriesOK (pEntries s v) := pEntries_ok s.fieldsP v hwf hv
  have hndb := serializeFields_ndb (pEntries s v) (fixedTotal (pEntries s v))
  have htake : (serializeFields (pEntries s v) (fixedTotal (pEntries s v))).2.1.take
      (serializeFields (pEntries s v) (fixedTotal (pEntries s v))).2.2 =
      (serializeFields (pEntries s v) (fixedTotal (pEntries s v))).2.1 :=
    List.take_of_length_le (serializeFields_dyn_length_le _ _)
  have hslots : pSlots s.fieldsP (optBitsOf s.fieldsP v) 0 =
      (pEntries s v).map (fun e => (e.1, e.2.isSome)) := by
    rw [pSlots_optBitsOf s.fieldsP v hv]
    rfl
  have hcount0 : (pSerialize s v).2 =
      (if 0 < countOpt s.fieldsP then byteLen (countOpt s.fieldsP) else 0) +
        (serializeFields (pEntries s v) (fixedTotal (pEntries s v))).2.2 := by
    simp [pSerialize, apply_ite List.length, natToBytesLE_length]
  have hoff : fixedTotal (pEntries s v) + dynTotal (dynEntries (pEntries s v)) < 2 ^ 32 := by
    rw [hcount0, hndb] at hbound
    split at hbound <;> omega
  have hbody := deserializeBody_roundtrip (pEntries s v) hok hoff
  have hsnd : (pEntries s v).map Prod.snd = v := by
    unfold pEntries
    exact List.map_snd_zip _ v (by simp [hvlen])
  by_cases ho : 0 < countOpt s.fieldsP
  · have hcount : (pSerialize s v).2 = byteLen (countOpt s.fieldsP) +
        (serializeFields (pEntries s v) (fixedTotal (pEntries s v))).2.2 := by
      rw [hcount0, if_pos ho]
    have houtput : (pSerialize s v).1 =
        natToBytesLE (byteLen (countOpt s.fieldsP)) (optBitsOf s.fieldsP v) ++
          ((serializeFields (pEntries s v) (fixedTotal (pEntries s v))).1 ++
            (serializeFields (pEntries s v) (fixedTotal (pEntries s v))).2.1) := by
      simp only [pSerialize, if_pos ho, htake, List.append_assoc]
    have hob_lt : optBitsOf s.fieldsP v < 2 ^ countOpt s.fieldsP := optBitsOf_lt _ _
    have hobpb : bytesToNatLE (natToBytesLE (byteLen (countOpt s.fieldsP))
        (optBitsOf s.fieldsP v)) = optBitsOf s.fieldsP v :=
      bytesToNatLE_natToBytesLE (lt_of_lt_of_le hob_lt (two_pow_le_256_pow_byteLen _))
    have hrb := readBytes_append_of_length
      ((serializeFields (pEntries s v) (fixedTotal (pEntries s v))).1 ++
        (serializeFields (pEntries s v) (fixedTotal (pEntries s v))).2.1)
      (natToBytesLE_length (byteLen (countOpt s.fieldsP)) (optBitsOf s.fieldsP v))
    have hif1 : ¬ ((pSerialize s v).2 < byteLen (countOpt s.fieldsP)) := by
      rw [hcount]
      omega
    rw [houtput]
    simp only [pDeserialize, if_pos ho, if_neg hif1, hrb, hobpb, if_pos hob_lt, hslots,
      hcount, Nat.add_sub_cancel_left, hbody, hsnd]
    rw [if_neg (by omega)]
  · have hzero : optBitsOf s.fieldsP v = 0 :=
      optBitsOf_of_countOpt_zero _ v (by omega)
    have hcount : (pSerialize s v).2 =
        (serializeFields (pEntries s v) (fixedTotal (pEntries s v))).2.2 := by
      rw [hcount0, if_neg ho]
      omega
    have houtput : (pSerialize s v).1 =
        (serializeFields (pEntries s v) (fixedTotal (pEntries s v))).1 ++
          (serializeFields (pEntries s v) (fixedTotal (pEntries s v))).2.1 := by
      simp only [pSerialize, if_neg ho, htake, List.nil_append]
    have hslots0 : pSlots s.fieldsP 0 0 =
        (pEntries s v).map (fun e => (e.1, e.2.isSome)) := by
      have h1 : pSlots s.fieldsP 0 0 = pSlots s.fieldsP (optBitsOf s.fieldsP v) 0 := by
        rw [hzero]
      rw [h1, hslots]
    rw [houtput]
    simp only [pDeserialize, if_neg ho, hslots0, hcount, hbody, hsnd]

/-! ### Claim C1 -/

/-- Claim C1: for every well-formed StableContainer or Profile value `v`,
deserializing the bytes produced by serializing `v`, with scope equal to
the number of bytes written, yields `v` back.  (As in the source, where
`encode_offset` packs offsets into 4 bytes, the encoding is assumed to
stay below `2^32` bytes.) -/
theorem claim_c1_roundtrip :
    (∀ (s : SCSchema) (v : List (Option Bytes)), s.wf → s.validValue v →
      (scSerialize s v).2 < 2 ^ 32 →
      scDeserialize s (scSerialize s v).1 (scSerialize s v).2 = .ok v) ∧
    (∀ (s : PSchema) (v : List (Option Bytes)), s.wf → pvWF s.fieldsP v →
      (pSerialize s v).2 < 2 ^ 32 →
      pDeserialize s (pSerialize s v).1 (pSerialize s v).2 = .ok v) :=
  ⟨fun s v hs hv hb => scSerialize_deserialize s v hs hv hb,
   fun s v hs hv hb => pSerialize_deserialize s v hs hv hb⟩

/-- Witness for C1: concrete round trips through a
`StableContainer[4]` with a `uint16` and a byte-list field, and a
`Profile` over it with the list field optional (spec scenarios 3 and 5). -/
theorem claim_c1_roundtrip_witness :
    scDeserialize ⟨4, [⟨true, 2, 2, 2⟩, ⟨false, 0, 0, 8⟩]⟩
      (scSerialize ⟨4, [⟨true, 2, 2, 2⟩, ⟨false, 0, 0, 8⟩]⟩
        [some [7, 0], some [1, 2, 3]]).1
      (scSerialize ⟨4, [⟨true, 2, 2, 2⟩, ⟨false, 0, 0, 8⟩]⟩
        [some [7, 0], some [1, 2, 3]]).2 = .ok [some [7, 0], some [1, 2, 3]] ∧
    pDeserialize ⟨true, [⟨⟨true, 2, 2, 2⟩, false⟩, ⟨⟨false, 0, 0, 8⟩, true⟩]⟩
      (pSerialize ⟨true, [⟨⟨true, 2, 2, 2⟩, false⟩, ⟨⟨false, 0, 0, 8⟩, true⟩]⟩
        [some [7, 0], some [1, 2]]).1
      (pSerialize ⟨true, [⟨⟨true, 2, 2, 2⟩, false⟩, ⟨⟨false, 0, 0, 8⟩, true⟩]⟩
        [some [7, 0], some [1, 2]]).2 = .ok [some [7, 0], some [1, 2]] :=
  ⟨claim_c1_roundtrip.1 _ _ (by decide) (by decide) (by decide),
   claim_c1_roundtrip.2 _ _ (by decide) (by decide) (by decide)⟩

/-! ### Size bounds (towards C4) -/

theorem fixedTotal_add_dynTotal_le_maxTotal (es : List (FTyp × Option Bytes))
    (hok : entriesOK es) :
    fixedTotal es + dynTotal (dynEntries es) ≤ maxTotal (es.map Prod.fst) := by
  induction es with
  | nil => simp [fixedTotal, dynEntries, dynTotal, maxTotal]
  | cons e rest ih =>
    have hokr : entriesOK rest := fun y hy => hok y (List.mem_cons_of_mem e hy)
    have ihr := ih hokr
    obtain ⟨t, ov⟩ := e
    match ov with
    | none =>
      simp only [fixedTotal, dynEntries, List.map_cons, maxTotal]
      omega
    | some bs =>
      have he := hok (t, some bs) (List.mem_cons_self _ _)
      dsimp only at he
      have hval := he.2 bs rfl
      unfold FTyp.valid at hval
      by_cases hf : t.isFixed
      · have hwf := he.1 hf
        unfold FTyp.wf at hwf
        simp only [fixedTotal, dynEntries, List.map_cons, maxTotal, hf, if_true]
        omega
      · simp only [fixedTotal, dynEntries, List.map_cons, maxTotal, hf,
          Bool.false_eq_true, if_false, dynTotal]
        omega

theorem minTotalP_le_entries : ∀ (fs : List PField) (v : List (Option Bytes)),
    (∀ f ∈ fs, f.typ.wf) → pvWF fs v →
    minTotalP fs ≤ fixedTotal ((fs.map PField.typ).zip v) +
      dynTotal (dynEntries ((fs.map PField.typ).zip v)) := by
  intro fs
  induction fs with
  | nil => intro v _ _; simp [minTotalP]
  | cons f rest ih =>
    intro v hwf hv
    match v with
    | [] => exact absurd hv (by simp [pvWF])
    | ov :: vr =>
      obtain ⟨hreq, hval, hrest⟩ := hv
      have ihr := ih vr (fun g hg => hwf g (List.mem_cons_of_mem _ hg)) hrest
      by_cases hopt : f.fopt
      · simp only [minTotalP, hopt, if_true, List.map_cons, List.zip_cons_cons]
        match ov with
        | none =>
          simp only [fixedTotal, dynEntries]
          omega
        | some bs =>
          by_cases hf : f.typ.isFixed
          · simp only [fixedTotal, dynEntries, hf, if_true]
            omega
          · simp only [fixedTotal, dynEntries, hf, Bool.false_eq_true, if_false, dynTotal]
            omega
      · have hsome : ov.isSome = true := hreq (by simpa using hopt)
        match ov, hsome with
        | some bs, _ =>
          have hv2 := hval bs rfl
          unfold FTyp.valid at hv2
          simp only [minTotalP, hopt, Bool.false_eq_true, if_false, List.map_cons,
            List.zip_cons_cons]
          by_cases hf : f.typ.isFixed
          · have hwf2 := hwf f (List.mem_cons_self _ _) hf
            simp only [fixedTotal, dynEntries, hf, if_true]
            omega
          · simp only [fixedTotal, dynEntries, hf, Bool.false_eq_true, if_false, dynTotal]
            omega

theorem scSerialize_size (s : SCSchema) (v : List (Option Bytes))
    (hs : s.wf) (hv : s.validValue v) :
    (scSerialize s v).1.length = (scSerialize s v).2 ∧
    scMinByteLength s ≤ (scSerialize s v).2 ∧
    (scSerialize s v).2 ≤ scMaxByteLength s := by
  obtain ⟨hpos, hflen, hwf⟩ := hs
  obtain ⟨hvlen, hvval⟩ := hv
  have hok : entriesOK (s.fields.zip v) := by
    intro e hmem
    obtain ⟨t, ov⟩ := e
    exact ⟨hwf t (List.of_mem_zip hmem).1, fun bs hbs => hvval (t, ov) hmem bs hbs⟩
  have h1 : (scSerialize s v).1.length = byteLen s.capN +
      (fixedTotal (s.fields.zip v) + dynTotal (dynEntries (s.fields.zip v))) := by
    simp [scSerialize, natToBytesLE_length, List.length_append,
      serializeFields_fst_length _ _ hok, serializeFields_dyn, joinBytes_length]
  have h2 : (scSerialize s v).2 = byteLen s.capN +
      (fixedTotal (s.fields.zip v) + dynTotal (dynEntries (s.fields.zip v))) := by
    simp [scSerialize, natToBytesLE_length, serializeFields_ndb]
  have hmax := fixedTotal_add_dynTotal_le_maxTotal (s.fields.zip v) hok
  have hfst : (s.fields.zip v).map Prod.fst = s.fields :=
    List.map_fst_zip s.fields v (le_of_eq hvlen.symm)
  rw [hfst] at hmax
  refine ⟨by rw [h1, h2], ?_, ?_⟩
  · rw [h2]
    unfold scMinByteLength
    omega
  · rw [h2]
    unfold scMaxByteLength
    omega

theorem pSerialize_size (s : PSchema) (v : List (Option Bytes))
    (hs : s.wf) (hv : pvWF s.fieldsP v) :
    (pSerialize s v).1.length = (pSerialize s v).2 ∧
    pMinByteLength s ≤ (pSerialize s v).2 ∧
    (pSerialize s v).2 ≤ pMaxByteLength s := by
  obtain ⟨hwf, _⟩ := hs
  have hvlen := pvWF_length s.fieldsP v hv
  have hok : entriesOK (pEntries s v) := pEntries_ok s.fieldsP v hwf hv
  have htake : (serializeFields (pEntries s v) (fixedTotal (pEntries s v))).2.1.take
      (serializeFields (pEntries s v) (fixedTotal (pEntries s v))).2.2 =
      (serializeFields (pEntries s v) (fixedTotal (pEntries s v))).2.1 :=
    List.take_of_length_le (serializeFields_dyn_length_le _ _)
  have h1 : (pSerialize s v).1.length =
      (if 0 < countOpt s.fieldsP then byteLen (countOpt s.fieldsP) else 0) +
      (fixedTotal (pEntries s v) + dynTotal (dynEntries (pEntries s v))) := by
    simp [pSerialize, htake, natToBytesLE_length, List.length_append,
      serializeFields_fst_length _ _ hok, serializeFields_dyn, joinBytes_length,
      apply_ite List.length]
    have hle := serializeFields_dyn_length_le (pEntries s v) (fixedTotal (pEntries s v))
    rw [serializeFields_dyn, joinBytes_length] at hle
    exact hle
  have h2 : (pSerialize s v).2 =
      (if 0 < countOpt s.fieldsP then byteLen (countOpt s.fieldsP) else 0) +
      (fixedTotal (pEntries s v) + dynTotal (dynEntries (pEntries s v))) := by
    simp [pSerialize, natToBytesLE_length, serializeFields_ndb, apply_ite List.length]
  have hmax := fixedTotal_add_dynTotal_le_maxTotal (pEntries s v) hok
  have hfst : (pEntries s v).map Prod.fst = s.fieldsP.map PField.typ := by
    unfold pEntries
    exact List.map_fst_zip _ v (by simp [hvlen])
  rw [hfst] at hmax
  have hmin := minTotalP_le_entries s.fieldsP v hwf hv
  refine ⟨by rw [h1, h2], ?_, ?_⟩
  · rw [h2]
    unfold pMinByteLength
    have : minTotalP s.fieldsP ≤
        fixedTotal (pEntries s v) + dynTotal (dynEntries (pEntries s v)) := hmin
    omega
  · rw [h2]
    unfold pMaxByteLength
    omega

/-! ### Claim C4 -/

/-- Claim C4: for every well-formed StableContainer or Profile value `v`,
the number of bytes written by `serialize` — which is also its return
value — is between the type's `min_byte_length` and `max_byte_length`. -/
theorem claim_c4_size_bounds :
    (∀ (s : SCSchema) (v : List (Option Bytes)), s.wf → s.validValue v →
      (scSerialize s v).1.length = (scSerialize s v).2 ∧
      scMinByteLength s ≤ (scSerialize s v).2 ∧
      (scSerialize s v).2 ≤ scMaxByteLength s) ∧
    (∀ (s : PSchema) (v : List (Option Bytes)), s.wf → pvWF s.fieldsP v →
      (pSerialize s v).1.length = (pSerialize s v).2 ∧
      pMinByteLength s ≤ (pSerialize s v).2 ∧
      (pSerialize s v).2 ≤ pMaxByteLength s) :=
  ⟨fun s v hs hv => scSerialize_size s v hs hv,
   fun s v hs hv => pSerialize_size s v hs hv⟩

/-- Witness for C4 at the same concrete schemas and values as C1. -/
theorem claim_c4_size_bounds_witness :
    ((scSerialize ⟨4, [⟨true, 2, 2, 2⟩, ⟨false, 0, 0, 8⟩]⟩
        [some [7, 0], some [1, 2, 3]]).1.length =
      (scSerialize ⟨4, [⟨true, 2, 2, 2⟩, ⟨false, 0, 0, 8⟩]⟩
        [some [7, 0], some [1, 2, 3]]).2 ∧
      scMinByteLength ⟨4, [⟨true, 2, 2, 2⟩, ⟨false, 0, 0, 8⟩]⟩ ≤
        (scSerialize ⟨4, [⟨true, 2, 2, 2⟩, ⟨false, 0, 0, 8⟩]⟩
          [some [7, 0], some [1, 2, 3]]).2 ∧
      (scSerialize ⟨4, [⟨true, 2, 2, 2⟩, ⟨false, 0, 0, 8⟩]⟩
        [some [7, 0], some [1, 2, 3]]).2 ≤
        scMaxByteLength ⟨4, [⟨true, 2, 2, 2⟩, ⟨false, 0, 0, 8⟩]⟩) ∧
    ((pSerialize ⟨true, [⟨⟨true, 2, 2, 2⟩, false⟩, ⟨⟨false, 0, 0, 8⟩, true⟩]⟩
        [some [7, 0], none]).1.length =
      (pSerialize ⟨true, [⟨⟨true, 2, 2, 2⟩, false⟩, ⟨⟨false, 0, 0, 8⟩, true⟩]⟩
        [some [7, 0], none]).2 ∧
      pMinByteLength ⟨true, [⟨⟨true, 2, 2, 2⟩, false⟩, ⟨⟨false, 0, 0, 8⟩, true⟩]⟩ ≤
        (pSerialize ⟨true, [⟨⟨true, 2, 2, 2⟩, false⟩, ⟨⟨false, 0, 0, 8⟩, true⟩]⟩
          [some [7, 0], none]).2 ∧
      (pSerialize ⟨true, [⟨⟨true, 2, 2, 2⟩, false⟩, ⟨⟨false, 0, 0, 8⟩, true⟩]⟩
        [some [7, 0], none]).2 ≤
        pMaxByteLength ⟨true, [⟨⟨true, 2, 2, 2⟩, false⟩, ⟨⟨false, 0, 0, 8⟩, true⟩]⟩) :=
  ⟨claim_c4_size_bounds.1 _ _ (by decide) (by decide),
   claim_c4_size_bounds.2 _ _ (by decide) (by decide)⟩

instance {ε α : Type _} [DecidableEq ε] [DecidableEq α] : DecidableEq (Except ε α)
  | .error e1, .error e2 =>
    if h : e1 = e2 then isTrue (by rw [h])
    else isFalse (by intro hc; cases hc; exact h rfl)
  | .error _, .ok _ => isFalse (by intro hc; cases hc)
  | .ok _, .error _ => isFalse (by intro hc; cases hc)
  | .ok a1, .ok a2 =>
    if h : a1 = a2 then isTrue (by rw [h])
    else isFalse (by intro hc; cases hc; exact h rfl)

/-! ### Claim C9 -/

/-- Claim C9: for a Profile value with a present dynamic-length field, the
final `temp_dyn_stream.read(num_data_bytes)` of `Profile.serialize` never
truncates: at that point `num_data_bytes` also counts the fixed section,
so it is at least the side buffer's size, and the whole side buffer is
written. -/
theorem claim_c9_no_truncation (s : PSchema) (v : List (Option Bytes))
    (_hdyn : hasDynFields (pEntries s v) = true) :
    (serializeFields (pEntries s v) (fixedTotal (pEntries s v))).2.1.length ≤
      (serializeFields (pEntries s v) (fixedTotal (pEntries s v))).2.2 ∧
    (pSerialize s v).1 =
      (if 0 < countOpt s.fieldsP then
        natToBytesLE (byteLen (countOpt s.fieldsP)) (optBitsOf s.fieldsP v) else []) ++
        ((serializeFields (pEntries s v) (fixedTotal (pEntries s v))).1 ++
          (serializeFields (pEntries s v) (fixedTotal (pEntries s v))).2.1) := by
  refine ⟨serializeFields_dyn_length_le _ _, ?_⟩
  simp [pSerialize, List.take_of_length_le (serializeFields_dyn_length_le _ _),
    List.append_assoc]

/-- Witness for C9: a Profile with a present dynamic byte-list field. -/
theorem claim_c9_no_truncation_witness :
    hasDynFields (pEntries ⟨true, [⟨⟨true, 2, 2, 2⟩, false⟩, ⟨⟨false, 0, 0, 8⟩, true⟩]⟩
      [some [7, 0], some [1, 2]]) = true ∧
    (serializeFields (pEntries ⟨true, [⟨⟨true, 2, 2, 2⟩, false⟩, ⟨⟨false, 0, 0, 8⟩, true⟩]⟩
        [some [7, 0], some [1, 2]])
      (fixedTotal (pEntries ⟨true, [⟨⟨true, 2, 2, 2⟩, false⟩, ⟨⟨false, 0, 0, 8⟩, true⟩]⟩
        [some [7, 0], some [1, 2]]))).2.1.length ≤
      (serializeFields (pEntries ⟨true, [⟨⟨true, 2, 2, 2⟩, false⟩, ⟨⟨false, 0, 0, 8⟩, true⟩]⟩
          [some [7, 0], some [1, 2]])
        (fixedTotal (pEntries ⟨true, [⟨⟨true, 2, 2, 2⟩, false⟩, ⟨⟨false, 0, 0, 8⟩, true⟩]⟩
          [some [7, 0], some [1, 2]]))).2.2 :=
  ⟨by decide,
   (claim_c9_no_truncation ⟨true, [⟨⟨true, 2, 2, 2⟩, false⟩, ⟨⟨false, 0, 0, 8⟩, true⟩]⟩
     [some [7, 0], some [1, 2]] (by decide)).1⟩

/-! ### Claim C5 -/

/-- Reduction of `scDeserialize` past the scope check and the bitvector
prefix read. -/
theorem scDeserialize_eq (s : SCSchema) (input : Bytes) (scope : Nat)
    (hscope : ¬ scope < byteLen s.capN)
    (hlen : byteLen s.capN ≤ input.length)
    (hpad : bytesToNatLE (input.take (byteLen s.capN)) < 2 ^ s.capN) :
    scDeserialize s input scope =
      match checkUnknownBits (bytesToNatLE (input.take (byteLen s.capN)))
          s.fields.length s.capN with
      | .error e => .error e
      | .ok _ =>
        deserializeBody
          (scSlots s.fields (bytesToNatLE (input.take (byteLen s.capN))) 0)
          (input.drop (byteLen s.capN)) (scope - byteLen s.capN) := by
  have hrb : readBytes input (byteLen s.capN) =
      .ok (input.take (byteLen s.capN), input.drop (byteLen s.capN)) := by
    unfold readBytes
    rw [if_pos hlen]
  simp only [scDeserialize, if_neg hscope, hrb, if_pos hpad]

/-- Claim C5: during `StableContainer[N]` deserialization, after reading
the active-fields bitvector, a set bit at an index in `[field_count, N)`
makes decoding fail with the unknown-field error; with no such bit,
decoding proceeds to the field-section parse. -/
theorem claim_c5_unknown_field (s : SCSchema) (input : Bytes) (scope : Nat)
    (hscope : ¬ scope < byteLen s.capN)
    (hlen : byteLen s.capN ≤ input.length)
    (hpad : bytesToNatLE (input.take (byteLen s.capN)) < 2 ^ s.capN) :
    ((∃ j, s.fields.length ≤ j ∧ j < s.capN ∧
        (bytesToNatLE (input.take (byteLen s.capN))).testBit j = true) →
      ∃ j, s.fields.length ≤ j ∧ j < s.capN ∧
        (bytesToNatLE (input.take (byteLen s.capN))).testBit j = true ∧
        scDeserialize s input scope = .error (.unknownField j)) ∧
    ((∀ j, s.fields.length ≤ j → j < s.capN →
        (bytesToNatLE (input.take (byteLen s.capN))).testBit j = false) →
      scDeserialize s input scope =
        deserializeBody
          (scSlots s.fields (bytesToNatLE (input.take (byteLen s.capN))) 0)
          (input.drop (byteLen s.capN)) (scope - byteLen s.capN)) := by
  have hred := scDeserialize_eq s input scope hscope hlen hpad
  constructor
  · rintro ⟨j, hj1, hj2, hj3⟩
    match hfind : (List.range (s.capN - s.fields.length)).find?
        (fun x => (bytesToNatLE (input.take (byteLen s.capN))).testBit
          (s.fields.length + x)) with
    | none =>
      exfalso
      have hall := List.find?_eq_none.mp hfind (j - s.fields.length)
        (List.mem_range.mpr (by omega))
      have : s.fields.length + (j - s.fields.length) = j := by omega
      rw [this, hj3] at hall
      exact hall rfl
    | some j0 =>
      have hbit := List.find?_some hfind
      have hmem := List.mem_range.mp (List.mem_of_find?_eq_some hfind)
      refine ⟨s.fields.length + j0, Nat.le_add_right _ _, by omega, by simpa using hbit, ?_⟩
      rw [hred]
      unfold checkUnknownBits
      rw [hfind]
  · intro hnone
    have hfind : (List.range (s.capN - s.fields.length)).find?
        (fun x => (bytesToNatLE (input.take (byteLen s.capN))).testBit
          (s.fields.length + x)) = none := by
      rw [List.find?_eq_none]
      intro x hx
      have := hnone (s.fields.length + x) (Nat.le_add_right _ _)
        (by have := List.mem_range.mp hx; omega)
      simp [this]
    rw [hred]
    unfold checkUnknownBits
    rw [hfind]

/-- Witness for C5: a `StableContainer[4]` schema with two fields and an
input whose bitvector sets bit 2. -/
theorem claim_c5_unknown_field_witness :
    scDeserialize ⟨4, [⟨true, 2, 2, 2⟩, ⟨true, 4, 4, 4⟩]⟩ [4] 1 =
      .error (.unknownField 2) := by
  have h := (claim_c5_unknown_field ⟨4, [⟨true, 2, 2, 2⟩, ⟨true, 4, 4, 4⟩]⟩ [4] 1
    (by decide) (by decide) (by decide)).1 ⟨2, by decide⟩
  obtain ⟨j, hj1, hj2, hj3, hj4⟩ := h
  have hj1a : 2 ≤ j := by simpa using hj1
  have hj2a : j < 4 := by simpa using hj2
  have hj3a : (bytesToNatLE (List.take 1 [4])).testBit j = true := by simpa using hj3
  interval_cases j
  · exact hj4
  · exact absurd hj3a (by decide)

/-! ### Claim C3 -/

/-- Counterexample for C3 as stated: a `StableContainer[1]` with one
dynamic field decodes successfully although the first recorded dynamic
offset (5) differs from the computed fixed-section size (4); the source
only rejects first offsets that are smaller than the fixed size, and it
never checks that the gap bytes are consumed. -/
theorem claim_c3_counterexample :
    parseFixed
        (scSlots [⟨false, 0, 0, 8⟩]
          (bytesToNatLE (List.take (byteLen 1) [1, 5, 0, 0, 0, 170])) 0)
        (List.drop (byteLen 1) [1, 5, 0, 0, 0, 170]) =
      .ok ([.dynOff ⟨false, 0, 0, 8⟩ 5], 4, [170]) ∧
    (5 : Nat) ≠ 4 ∧
    scDeserialize ⟨1, [⟨false, 0, 0, 8⟩]⟩ [1, 5, 0, 0, 0, 170] 6 = .ok [some []] :=
  ⟨by decide, by decide, by decide⟩

/-- Claim C3 (amended): when dynamic fields are recorded, decoding fails
with the first-offset error when the first recorded offset is smaller
than the computed fixed-section size; a first offset greater than or
equal to the fixed size passes the first-offset check. -/
theorem claim_c3_first_offset (s : SCSchema) (input : Bytes) (scope : Nat)
    (items : List Item) (fixedSize : Nat) (rest : Bytes) (t : FTyp) (off : Nat)
    (ds : List (FTyp × Nat))
    (hscope : ¬ scope < byteLen s.capN)
    (hlen : byteLen s.capN ≤ input.length)
    (hpad : bytesToNatLE (input.take (byteLen s.capN)) < 2 ^ s.capN)
    (hcub : checkUnknownBits (bytesToNatLE (input.take (byteLen s.capN)))
      s.fields.length s.capN = .ok ())
    (hparse : parseFixed
        (scSlots s.fields (bytesToNatLE (input.take (byteLen s.capN))) 0)
        (input.drop (byteLen s.capN)) = .ok (items, fixedSize, rest))
    (hdyn : dynOf items = (t, off) :: ds) :
    (off < fixedSize → scDeserialize s input scope = .error .firstOffsetTooSmall) ∧
    (fixedSize ≤ off → checkFirstOffset (dynOf items) fixedSize = .ok ()) := by
  have hred := scDeserialize_eq s input scope hscope hlen hpad
  constructor
  · intro hlt
    simp only [hred, hcub, deserializeBody, hparse, hdyn, checkFirstOffset, if_pos hlt]
  · intro hge
    rw [hdyn]
    simp only [checkFirstOffset]
    rw [if_neg (by omega)]

/-- Witness for the amended C3: a first offset of 3 with a fixed size of
4 is rejected. -/
theorem claim_c3_first_offset_witness :
    scDeserialize ⟨1, [⟨false, 0, 0, 8⟩]⟩ [1, 3, 0, 0, 0, 170] 6 =
      .error .firstOffsetTooSmall :=
  (claim_c3_first_offset ⟨1, [⟨false, 0, 0, 8⟩]⟩ [1, 3, 0, 0, 0, 170] 6
    [.dynOff ⟨false, 0, 0, 8⟩ 3] 4 [170] ⟨false, 0, 0, 8⟩ 3 []
    (by decide) (by decide) (by decide) (by decide) (by decide) (by decide)).1
    (by decide)

/-! ## Tree model

The Merkle backing of StableContainer / Profile values.  The tree
substrate (`remerkleable.tree`) is external to the source file and is
modelled from the spec's substrate contract (§6). -/

/-- Modelled from the spec: a node of the persistent binary Merkle tree is
a 32-byte chunk or a pair; nodes are content-addressed (hash-consed per
§9), so node equality is structural. -/
inductive Node where
  | leaf (bs : Bytes)
  | pair (l r : Node)
deriving DecidableEq, Repr

/-- Modelled from the spec: `zero_node(depth)`, expanded to its full
content (a depth-`d` tree of zero chunks). -/
def zeroNode : Nat → Node
  | 0 => .leaf (List.replicate 32 0)
  | d + 1 => .pair (zeroNode d) (zeroNode d)

/-- `Node.get_left()`; fails on a chunk. -/
def Node.getLeft : Node → Option Node
  | .pair l _ => some l
  | .leaf _ => none

/-- `Node.get_right()`; fails on a chunk. -/
def Node.getRight : Node → Option Node
  | .pair _ r => some r
  | .leaf _ => none

/-- `Node.rebind_left(l')`: replace the left child of a pair node. -/
def Node.rebindLeft : Node → Node → Option Node
  | .pair _ r, l1 => some (.pair l1 r)
  | .leaf _, _ => none

/-- `Node.rebind_right(r')`: replace the right child of a pair node. -/
def Node.rebindRight : Node → Node → Option Node
  | .pair l _, r1 => some (.pair l r1)
  | .leaf _, _ => none

/-- The least `L ≤ g` with `g < 2^L`: the binary length of `g`
(`(g).bit_length()`), defined through a bounded search so that it
evaluates by kernel reduction. -/
def bitLen (g : Nat) : Nat :=
  ((List.range (g + 1)).find? (fun L => g < 2 ^ L)).getD 0

/-- Navigation path of a gindex `g`: the bits of `g` below the leading
one, most significant first (root is 1, left child `2n`, right child
`2n+1`). -/
def gindexPath (g : Nat) : List Bool :=
  ((List.range (bitLen g - 1)).reverse).map (fun k => g.testBit k)

/-- Follow a path of child choices (`false` = left). -/
def getAt : Node → List Bool → Option Node
  | n, [] => some n
  | .pair l r, b :: p => getAt (if b then r else l) p
  | .leaf _, _ :: _ => none

/-- Rebuild the tree with `v` at the end of the path. -/
def setAt : Node → List Bool → Node → Option Node
  | _, [], v => some v
  | .pair l r, b :: p, v =>
    if b then (setAt r p v).map (fun r1 => .pair l r1)
    else (setAt l p v).map (fun l1 => .pair l1 r)
  | .leaf _, _ :: _, _ => none

/-- `Node.getter(gindex)` of the tree substrate. -/
def Node.getter (n : Node) (g : Nat) : Option Node := getAt n (gindexPath g)

/-- `Node.setter(gindex)(node)` of the tree substrate (functional). -/
def Node.setter (n : Node) (g : Nat) (v : Node) : Option Node := setAt n (gindexPath g) v

/-- Modelled from the spec: `get_depth(n) = ceil(log2(n))`, the least `d`
with `n ≤ 2^d`, defined through a bounded search so that it evaluates by
kernel reduction. -/
def get_depth (n : Nat) : Nat :=
  ((List.range (n + 1)).find? (fun d => n ≤ 2 ^ d)).getD 0

/-- Modelled from the spec: the backing of a `Bitvector[N]` for `N ≤ 256`
is a single 32-byte chunk with the bits packed LSB-first. -/
def bvBacking (a : Nat) : Node := .leaf (natToBytesLE 32 a)

/-- The bitvector value held by the right child of a StableContainer
backing (`active_fields()`, lines 174-176, composed with `Bitvector.get`). -/
def afOf (st : Node) : Nat :=
  match st.getRight with
  | some (.leaf bs) => bytesToNatLE bs
  | _ => 0

/-- `Bitvector.set(i, b)` at the packed-value level. -/
def setBitN (a i : Nat) (b : Bool) : Nat :=
  if a.testBit i = b then a else a ^^^ 2 ^ i

/-- Modelled from the spec: `subtree_fill_to_contents(nodes, depth)` — a
depth-`depth` subtree whose first leaves are `nodes` and whose remaining
leaves are zero. -/
def subtreeFill (nodes : List Node) : Nat → Node
  | 0 => nodes.headD (zeroNode 0)
  | d + 1 => .pair (subtreeFill (nodes.take (2 ^ d)) d) (subtreeFill (nodes.drop (2 ^ d)) d)

/-- The active-fields bitvector built by `StableContainer.__new__`
(lines 77-90): bit `findex` is set iff the field input is present. -/
def activeBits : List (Option Node) → Nat
  | [] => 0
  | ov :: r => (if ov.isSome then 1 else 0) + 2 * activeBits r

/-- `StableContainer.__new__` from a field map (lines 70-98): the backing
is `PairNode(subtree_fill_to_contents(input_nodes, get_depth(N)),
active_fields_backing)`, absent fields contributing `zero_node(0)`. -/
def scNew (n : Nat) (fieldMap : List (Option Node)) : Node :=
  .pair (subtreeFill (fieldMap.map (fun ov => ov.getD (zeroNode 0))) (get_depth n))
    (bvBacking (activeBits fieldMap))

/-- `stable_set` (lines 30-48): set the active bit and rebind the right
child, then write the field backing (or `zero_node(0)` for `None`) at
gindex `2^get_depth(n) + findex` of the data subtree and rebind the left
child. -/
def stableSet (self : Node) (findex : Nat) (n : Nat) (value : Option Node) : Option Node :=
  let af1 := setBitN (afOf self) findex value.isSome
  match self.rebindRight (bvBacking af1) with
  | none => none
  | some nb1 =>
    let fnode := match value with
      | some v => v
      | none => zeroNode 0
    match nb1.getLeft with
    | none => none
    | some data =>
      match data.setter (2 ^ get_depth n + findex) fnode with
      | none => none
      | some nextData => nb1.rebindLeft nextData

/-- `stable_get` (lines 22-27): `None` when the active bit is clear, else
the view over the leaf at gindex `2^get_depth(n) + findex`.  The outer
`Option` is navigation failure. -/
def stableGet (self : Node) (findex : Nat) (n : Nat) : Option (Option Node) :=
  if (afOf self).testBit findex = false then some none
  else
    match self.getLeft with
    | none => none
    | some data => (data.getter (2 ^ get_depth n + findex)).map some

/-- The leaf of the data subtree at field position `j` (the tree access
shared by `stable_get` and `serialize`). -/
def scLeafAt (st : Node) (n j : Nat) : Option Node :=
  match st.getLeft with
  | some data => data.getter (2 ^ get_depth n + j)
  | none => none

/-- `Profile.__getattr__` for a StableContainer base (lines 478-494):
`stable_get`, then `assert value is not None or fopt`. -/
def profileGetAttr (self : Node) (findex : Nat) (n : Nat) (fopt : Bool) :
    Except Err (Option Node) :=
  match stableGet self findex n with
  | none => .error .navigationError
  | some value =>
    if value.isNone && !fopt then .error .assertionError
    else .ok value

/-- `Profile.__setattr__` for a StableContainer base (lines 496-511):
reject `None` on a required field with `ValueError`, else `stable_set`. -/
def profileSetAttr (self : Node) (findex : Nat) (n : Nat) (fopt : Bool)
    (value : Option Node) : Except Err Node :=
  if value.isNone && !fopt then .error .valueError
  else
    match stableSet self findex n value with
    | none => .error .navigationError
    | some st => .ok st

/-- The backing after a `Profile.__setattr__` call whose raised exception
propagates: `set_backing` is reached only on success, so on failure the
old backing is kept. -/
def profileSetOrKeep (self : Node) (findex : Nat) (n : Nat) (fopt : Bool)
    (value : Option Node) : Node :=
  match profileSetAttr self findex n fopt value with
  | .ok st => st
  | .error _ => self

/-- `RIGHT_GINDEX = 3` of the tree substrate. -/
def RIGHT_GINDEX : Nat := 3

/-- A static-navigation key: a declared field (by its index) or the
special `__active_fields__` key. -/
inductive SCKey where
  | activeFieldsKey
  | field (i : Nat)
deriving DecidableEq, Repr

/-- `StableContainer.key_to_static_gindex` (lines 299-304). -/
def scKeyToStaticGindex (n : Nat) : SCKey → Nat
  | .activeFieldsKey => RIGHT_GINDEX
  | .field i => 2 ^ get_depth n * 2 + i

/-- `Profile.key_to_static_gindex` (lines 624-633): `n` is `B.N` for a
StableContainer base and the base's field count for a plain Container
base. -/
def profileKeyToStaticGindex (baseIsSC : Bool) (n : Nat) : SCKey → Nat
  | .activeFieldsKey => RIGHT_GINDEX
  | .field i => if baseIsSC then 2 ^ get_depth n * 2 + i else 2 ^ get_depth n + i

/-! ### Least-witness lemmas for the bounded searches -/

theorem find?_range_least {p : Nat → Bool} {n m : Nat}
    (h : (List.range n).find? p = some m) :
    p m = true ∧ ∀ j, j < m → p j = false := by
  obtain ⟨hpm, as, bs, heq, hfail⟩ := List.find?_eq_some.mp h
  have hlen : as.length < n := by
    have := congrArg List.length heq
    simp at this
    omega
  have hm : m = as.length := by
    have h1 : (List.range n)[as.length]? = some m := by
      rw [heq, List.getElem?_append_right (le_refl _)]
      simp
    rw [List.getElem?_range hlen] at h1
    exact (Option.some.inj h1).symm
  refine ⟨hpm, ?_⟩
  intro j hj
  have hj2 : j < as.length := by omega
  have h2 : as[j]? = some j := by
    have h3 : (List.range n)[j]? = as[j]? := by
      rw [heq, List.getElem?_append_left hj2]
    rw [List.getElem?_range (by omega)] at h3
    exact h3.symm
  have hjm : j ∈ as := List.getElem?_mem h2
  have := hfail j hjm
  simpa using this

theorem get_depth_some (n : Nat) :
    ∃ m, (List.range (n + 1)).find? (fun d => n ≤ 2 ^ d) = some m := by
  have hsome : ((List.range (n + 1)).find? (fun d => n ≤ 2 ^ d)).isSome := by
    rw [List.find?_isSome]
    exact ⟨n, List.mem_range.mpr (Nat.lt_succ_self n),
      by simp [Nat.le_of_lt (Nat.lt_two_pow n)]⟩
  exact Option.isSome_iff_exists.mp hsome

/-- `get_depth` satisfies `n ≤ 2 ^ get_depth n`. -/
theorem get_depth_le (n : Nat) : n ≤ 2 ^ get_depth n := by
  obtain ⟨m, hm⟩ := get_depth_some n
  have := (find?_range_least hm).1
  unfold get_depth
  rw [hm]
  simpa using this

/-- `get_depth n` is the least `d` with `n ≤ 2 ^ d`, i.e. `ceil(log2 n)`. -/
theorem get_depth_min {n d : Nat} (h : n ≤ 2 ^ d) : get_depth n ≤ d := by
  obtain ⟨m, hm⟩ := get_depth_some n
  have hleast := (find?_range_least hm).2
  unfold get_depth
  rw [hm]
  simp only [Option.getD_some]
  by_contra hc
  push_neg at hc
  have := hleast d hc
  simp [h] at this

theorem bitLen_some (g : Nat) :
    ∃ m, (List.range (g + 1)).find? (fun L => g < 2 ^ L) = some m := by
  have hsome : ((List.range (g + 1)).find? (fun L => g < 2 ^ L)).isSome := by
    rw [List.find?_isSome]
    exact ⟨g, List.mem_range.mpr (Nat.lt_succ_self g), by simp [Nat.lt_two_pow g]⟩
  exact Option.isSome_iff_exists.mp hsome

theorem bitLen_lt (g : Nat) : g < 2 ^ bitLen g := by
  obtain ⟨m, hm⟩ := bitLen_some g
  have := (find?_range_least hm).1
  unfold bitLen
  rw [hm]
  simpa using this

theorem bitLen_min {g L : Nat} (h : g < 2 ^ L) : bitLen g ≤ L := by
  obtain ⟨m, hm⟩ := bitLen_some g
  have hleast := (find?_range_least hm).2
  unfold bitLen
  rw [hm]
  simp only [Option.getD_some]
  by_contra hc
  push_neg at hc
  have := hleast L hc
  simp [h] at this

/-- The binary length of `2^d + i` for `i < 2^d` is `d + 1`. -/
theorem bitLen_two_pow_add {d i : Nat} (hi : i < 2 ^ d) :
    bitLen (2 ^ d + i) = d + 1 := by
  have h1 : bitLen (2 ^ d + i) ≤ d + 1 := by
    apply bitLen_min
    rw [pow_succ]
    omega
  have h2 : ¬ bitLen (2 ^ d + i) ≤ d := by
    intro hle
    have := bitLen_lt (2 ^ d + i)
    have hmono : 2 ^ bitLen (2 ^ d + i) ≤ 2 ^ d :=
      Nat.pow_le_pow_right (by norm_num) hle
    omega
  omega

/-! ### Claim C7 -/

/-- Claim C7: `key_to_static_gindex` maps a StableContainer field at
position `i` to `2^(D+1) + i` with `D = ceil(log2 N)` (the least `d` with
`N ≤ 2^d`), maps `__active_fields__` to gindex 3, and for a Profile over
a plain Container base maps field `i` to `2^D + i` with `D` computed from
the base's field count; the gindex depends only on the capacity, not on
the schema's field count. -/
theorem claim_c7_gindex :
    (∀ n i, scKeyToStaticGindex n (.field i) = 2 ^ (get_depth n + 1) + i) ∧
    (∀ n, scKeyToStaticGindex n .activeFieldsKey = 3) ∧
    (∀ n i, profileKeyToStaticGindex true n (.field i) = 2 ^ (get_depth n + 1) + i) ∧
    (∀ n i, profileKeyToStaticGindex false n (.field i) = 2 ^ get_depth n + i) ∧
    (∀ n, n ≤ 2 ^ get_depth n ∧ ∀ d, n ≤ 2 ^ d → get_depth n ≤ d) ∧
    (∀ s1 s2 : SCSchema, s1.capN = s2.capN → ∀ k,
      scKeyToStaticGindex s1.capN k = scKeyToStaticGindex s2.capN k) := by
  refine ⟨?_, ?_, ?_, ?_, ?_, ?_⟩
  · intro n i
    simp [scKeyToStaticGindex, pow_succ]
  · intro n
    simp [scKeyToStaticGindex, RIGHT_GINDEX]
  · intro n i
    simp [profileKeyToStaticGindex, pow_succ]
  · intro n i
    simp [profileKeyToStaticGindex]
  · intro n
    exact ⟨get_depth_le n, fun d hd => get_depth_min hd⟩
  · intro s1 s2 hcap k
    rw [hcap]

/-- Witness for C7 at `N = 4` (depth 2). -/
theorem claim_c7_gindex_witness :
    scKeyToStaticGindex 4 (.field 1) = 2 ^ (get_depth 4 + 1) + 1 ∧
    scKeyToStaticGindex 4 .activeFieldsKey = 3 ∧
    profileKeyToStaticGindex false 3 (.field 2) = 2 ^ get_depth 3 + 2 ∧
    4 ≤ 2 ^ get_depth 4 ∧ get_depth 4 ≤ 2 :=
  ⟨claim_c7_gindex.1 4 1, claim_c7_gindex.2.1 4,
   claim_c7_gindex.2.2.2.1 3 2, (claim_c7_gindex.2.2.2.2.1 4).1,
   (claim_c7_gindex.2.2.2.2.1 4).2 2 (by norm_num)⟩

/-! ### Claim C6 -/

/-- Claim C6: assigning `None` to a required (non-optional) Profile field
fails with `ValueError`, and the failing assignment leaves the backing
unchanged (`set_backing` is never reached). -/
theorem claim_c6_required_none (self : Node) (findex n : Nat) :
    profileSetAttr self findex n false none = .error .valueError ∧
    profileSetOrKeep self findex n false none = self :=
  ⟨rfl, rfl⟩

/-! ### Claim C10 -/

/-- Claim C10: reading a required Profile field whose active bit is 0
returns the absence sentinel from `stable_get`, so the accessor's
assertion `value is not None or fopt` fails with `AssertionError`. -/
theorem claim_c10_required_absent (self : Node) (findex n : Nat)
    (hbit : (afOf self).testBit findex = false) :
    profileGetAttr self findex n false = .error .assertionError := by
  unfold profileGetAttr stableGet
  rw [if_pos hbit]
  rfl

/-- Witness for C10: a freshly constructed all-absent `StableContainer[1]`
backing. -/
theorem claim_c10_required_absent_witness :
    profileGetAttr (scNew 1 [none]) 0 1 false = .error .assertionError :=
  claim_c10_required_absent (scNew 1 [none]) 0 1 (by decide)

/-! ### Path and bit lemmas for the data subtree -/

/-- The `d`-bit big-endian path of a leaf index `i < 2^d`. -/
def bitsBE (d i : Nat) : List Bool :=
  ((List.range d).reverse).map (fun k => i.testBit k)

theorem bitsBE_length (d i : Nat) : (bitsBE d i).length = d := by
  simp [bitsBE]

theorem bitsBE_succ (d i : Nat) :
    bitsBE (d + 1) i = i.testBit d :: bitsBE d i := by
  simp [bitsBE, List.range_succ]

/-- The gindex `2^d + i` with `i < 2^d` navigates by the `d` bits of `i`,
most significant first. -/
theorem gindexPath_two_pow_add {d i : Nat} (hi : i < 2 ^ d) :
    gindexPath (2 ^ d + i) = bitsBE d i := by
  unfold gindexPath bitsBE
  rw [bitLen_two_pow_add hi]
  simp only [Nat.add_sub_cancel]
  apply List.map_congr_left
  intro k hk
  have hkd : k < d := by
    have := List.mem_reverse.mp hk
    exact List.mem_range.mp this
  exact Nat.testBit_two_pow_add_gt hkd i

theorem lt_of_testBit_false {i d : Nat} (h2 : i < 2 ^ (d + 1))
    (hb : i.testBit d = false) : i < 2 ^ d := by
  by_contra h
  push_neg at h
  have hdiv : i / 2 ^ d = 1 := by
    apply Nat.div_eq_of_lt_le
    · omega
    · rw [pow_succ] at h2
      omega
  rw [Nat.testBit_to_div_mod, hdiv] at hb
  simp at hb

theorem ge_of_testBit_true {i d : Nat} (hb : i.testBit d = true) : 2 ^ d ≤ i := by
  by_contra h
  push_neg at h
  rw [Nat.testBit_lt_two_pow h] at hb
  cases hb

/-- Big-endian paths are injective below `2^d`. -/
theorem bitsBE_inj {d i j : Nat} (hi : i < 2 ^ d) (hj : j < 2 ^ d)
    (h : bitsBE d i = bitsBE d j) : i = j := by
  apply Nat.eq_of_testBit_eq
  intro k
  by_cases hk : k < d
  · have hpt := List.map_inj_left.mp (by simpa [bitsBE] using h) k
      (List.mem_reverse.mpr (List.mem_range.mpr hk))
    exact hpt
  · have h1 : i.testBit k = false :=
      Nat.testBit_lt_two_pow (lt_of_lt_of_le hi (Nat.pow_le_pow_right (by norm_num) (by omega)))
    have h2 : j.testBit k = false :=
      Nat.testBit_lt_two_pow (lt_of_lt_of_le hj (Nat.pow_le_pow_right (by norm_num) (by omega)))
    rw [h1, h2]

/-! ### Navigation well-formedness and frame lemmas -/

/-- The tree branches for at least `d` levels along every path (Invariant
A3: the data subtree has full depth). -/
def navOK : Node → Nat → Prop
  | _, 0 => True
  | .pair l r, d + 1 => navOK l d ∧ navOK r d
  | .leaf _, _ + 1 => False

theorem getAt_nil (nd : Node) : getAt nd [] = some nd := by
  cases nd <;> rfl

theorem navOK_zero (nd : Node) : navOK nd 0 := by
  cases nd <;> trivial

theorem setAt_nil (nd v : Node) : setAt nd [] v = some v := by
  cases nd <;> rfl

theorem setAt_ok (v : Node) : ∀ (p : List Bool) (nd : Node), navOK nd p.length →
    ∃ nd', setAt nd p v = some nd' ∧ navOK nd' p.length := by
  intro p
  induction p with
  | nil =>
    intro nd _
    exact ⟨v, setAt_nil nd v, navOK_zero v⟩
  | cons b p ih =>
    intro nd hnav
    match nd, hnav with
    | .pair l r, ⟨hl, hr⟩ =>
      cases b
      · obtain ⟨l1, hset, hnav1⟩ := ih l hl
        exact ⟨.pair l1 r, by simp [setAt, hset], ⟨hnav1, hr⟩⟩
      · obtain ⟨r1, hset, hnav1⟩ := ih r hr
        exact ⟨.pair l r1, by simp [setAt, hset], ⟨hl, hnav1⟩⟩

theorem getAt_ok : ∀ (p : List Bool) (nd : Node), navOK nd p.length →
    ∃ x, getAt nd p = some x := by
  intro p
  induction p with
  | nil =>
    intro nd _
    exact ⟨nd, getAt_nil nd⟩
  | cons b p ih =>
    intro nd hnav
    match nd, hnav with
    | .pair l r, ⟨hl, hr⟩ =>
      cases b
      · simpa [getAt] using ih l hl
      · simpa [getAt] using ih r hr

/-- Writing along a path puts the value at that path. -/
theorem getAt_setAt_self {v : Node} : ∀ {p : List Bool} {nd nd' : Node},
    setAt nd p v = some nd' → getAt nd' p = some v := by
  intro p
  induction p with
  | nil =>
    intro nd nd' h
    rw [setAt_nil] at h
    cases h
    exact getAt_nil v
  | cons b p ih =>
    intro nd nd' h
    match nd with
    | .leaf bs => simp [setAt] at h
    | .pair l r =>
      cases b
      · simp only [setAt, Bool.false_eq_true, if_false] at h
        obtain ⟨l1, hset, hnd⟩ := Option.map_eq_some'.mp h
        subst hnd
        simpa [getAt] using ih hset
      · simp only [setAt, if_true] at h
        obtain ⟨r1, hset, hnd⟩ := Option.map_eq_some'.mp h
        subst hnd
        simpa [getAt] using ih hset

/-- Writing along a path leaves every other same-length path unchanged. -/
theorem getAt_setAt_other {v : Node} : ∀ {p q : List Bool} {nd nd' : Node},
    p.length = q.length → p ≠ q → setAt nd p v = some nd' →
    getAt nd' q = getAt nd q := by
  intro p
  induction p with
  | nil =>
    intro q nd nd' hlen hne _
    match q, hlen with
    | [], _ => exact absurd rfl hne
  | cons b p ih =>
    intro q nd nd' hlen hne h
    match q, hlen with
    | c :: q, hlen =>
      match nd with
      | .leaf bs => simp [setAt] at h
      | .pair l r =>
        cases b
        · simp only [setAt, Bool.false_eq_true, if_false] at h
          obtain ⟨l1, hset, hnd⟩ := Option.map_eq_some'.mp h
          subst hnd
          cases c
          · have hpq : p ≠ q := by
              intro heq
              exact hne (by rw [heq])
            simpa [getAt] using ih (by simpa using hlen) hpq hset
          · simp [getAt]
        · simp only [setAt, if_true] at h
          obtain ⟨r1, hset, hnd⟩ := Option.map_eq_some'.mp h
          subst hnd
          cases c
          · simp [getAt]
          · have hpq : p ≠ q := by
              intro heq
              exact hne (by rw [heq])
            simpa [getAt] using ih (by simpa using hlen) hpq hset

/-! ### Bit-set lemmas -/

theorem setBitN_testBit_same (a i : Nat) (b : Bool) :
    (setBitN a i b).testBit i = b := by
  unfold setBitN
  split
  · assumption
  · rename_i h
    rw [Nat.testBit_xor, Nat.testBit_two_pow_self]
    cases hb : a.testBit i
    · cases b
      · exact absurd hb h
      · rfl
    · cases b
      · rfl
      · exact absurd hb h

theorem setBitN_testBit_other (a i : Nat) (b : Bool) {j : Nat} (h : j ≠ i) :
    (setBitN a i b).testBit j = a.testBit j := by
  unfold setBitN
  split
  · rfl
  · rw [Nat.testBit_xor, Nat.testBit_two_pow_of_ne (fun hij => h hij.symm)]
    cases a.testBit j <;> rfl

theorem setBitN_lt {a i N : Nat} (b : Bool) (ha : a < 2 ^ N) (hi : i < N) :
    setBitN a i b < 2 ^ N := by
  unfold setBitN
  split
  · exact ha
  · exact Nat.bitwise_lt_two_pow ha
      (Nat.pow_lt_pow_right (by norm_num) hi)

/-! ### Claim C8 -/

theorem afOf_pair_leaf (data : Node) (bts : Bytes) :
    afOf (.pair data (.leaf bts)) = bytesToNatLE bts := rfl

/-- Claim C8: a StableContainer field assignment rewrites exactly leaf
`i` of the data subtree and exactly bit `i` of the active-fields
bitvector; every other leaf and every other bit are unchanged in the new
backing. -/
theorem claim_c8_frame (data : Node) (bts : Bytes) (N i : Nat) (value : Option Node)
    (hnav : navOK data (get_depth N)) (hiN : i < N) (hN : N ≤ 256)
    (haf : bytesToNatLE bts < 2 ^ N) :
    ∃ st', stableSet (.pair data (.leaf bts)) i N value = some st' ∧
      (∀ j, j < 2 ^ get_depth N → j ≠ i →
        scLeafAt st' N j = scLeafAt (.pair data (.leaf bts)) N j) ∧
      scLeafAt st' N i = some (value.getD (zeroNode 0)) ∧
      (∀ j, j ≠ i →
        (afOf st').testBit j = (afOf (.pair data (.leaf bts))).testBit j) ∧
      (afOf st').testBit i = value.isSome := by
  have hiD : i < 2 ^ get_depth N := lt_of_lt_of_le hiN (get_depth_le N)
  have hpath := gindexPath_two_pow_add hiD
  obtain ⟨data', hset, _⟩ := setAt_ok (value.getD (zeroNode 0)) (bitsBE (get_depth N) i)
    data (by rw [bitsBE_length]; exact hnav)
  have haf1 : setBitN (bytesToNatLE bts) i value.isSome < 2 ^ N :=
    setBitN_lt value.isSome haf hiN
  have haf1R : bytesToNatLE (natToBytesLE 32
      (setBitN (bytesToNatLE bts) i value.isSome)) =
      setBitN (bytesToNatLE bts) i value.isSome := by
    apply bytesToNatLE_natToBytesLE
    calc setBitN (bytesToNatLE bts) i value.isSome < 2 ^ N := haf1
      _ ≤ 2 ^ 256 := Nat.pow_le_pow_right (by norm_num) hN
      _ = 256 ^ 32 := by norm_num
  refine ⟨.pair data' (bvBacking (setBitN (bytesToNatLE bts) i value.isSome)),
    ?_, ?_, ?_, ?_, ?_⟩
  · cases value with
    | none =>
      simp only [Option.getD_none] at hset
      simp only [stableSet, afOf_pair_leaf, Node.rebindRight, Node.getLeft, Node.setter,
        hpath, hset, Node.rebindLeft, Option.isSome_none]
    | some v =>
      simp only [Option.getD_some] at hset
      simp only [stableSet, afOf_pair_leaf, Node.rebindRight, Node.getLeft, Node.setter,
        hpath, hset, Node.rebindLeft, Option.isSome_some]
  · intro j hjD hji
    have hpathj := gindexPath_two_pow_add hjD
    have hne : bitsBE (get_depth N) i ≠ bitsBE (get_depth N) j :=
      fun he => hji (bitsBE_inj hiD hjD he).symm
    have hframe := getAt_setAt_other (by rw [bitsBE_length, bitsBE_length])
      hne hset
    simp only [scLeafAt, Node.getLeft, Node.getter, hpathj, hframe]
  · have hhit := getAt_setAt_self hset
    simp only [scLeafAt, Node.getLeft, Node.getter, hpath, hhit]
  · intro j hji
    have : afOf (.pair data' (bvBacking (setBitN (bytesToNatLE bts) i value.isSome))) =
        setBitN (bytesToNatLE bts) i value.isSome := haf1R
    rw [this, afOf_pair_leaf, setBitN_testBit_other _ _ _ hji]
  · have : afOf (.pair data' (bvBacking (setBitN (bytesToNatLE bts) i value.isSome))) =
        setBitN (bytesToNatLE bts) i value.isSome := haf1R
    rw [this, setBitN_testBit_same]

/-- Witness for C8: setting field 0 of an all-absent `StableContainer[1]`
backing to a one-byte chunk. -/
theorem claim_c8_frame_witness :
    ∃ st', stableSet (.pair (zeroNode 0) (.leaf (natToBytesLE 32 0))) 0 1
        (some (.leaf [1])) = some st' ∧
      (∀ j, j < 2 ^ get_depth 1 → j ≠ 0 →
        scLeafAt st' 1 j =
          scLeafAt (.pair (zeroNode 0) (.leaf (natToBytesLE 32 0))) 1 j) ∧
      scLeafAt st' 1 0 = some ((some (Node.leaf [1])).getD (zeroNode 0)) ∧
      (∀ j, j ≠ 0 →
        (afOf st').testBit j =
          (afOf (.pair (zeroNode 0) (.leaf (natToBytesLE 32 0)))).testBit j) ∧
      (afOf st').testBit 0 = (some (Node.leaf [1])).isSome :=
  claim_c8_frame (zeroNode 0) (natToBytesLE 32 0) 1 0 (some (.leaf [1]))
    (by rw [show get_depth 1 = 0 from rfl]; exact navOK_zero _)
    (by decide) (by decide) (by decide)

/-! ### Towards C2: construction and preservation of presence coherence -/

theorem navOK_subtreeFill : ∀ (d : Nat) (nodes : List Node),
    navOK (subtreeFill nodes d) d := by
  intro d
  induction d with
  | zero => intro nodes; exact navOK_zero _
  | succ d ih => intro nodes; exact ⟨ih _, ih _⟩

theorem getAt_subtreeFill : ∀ (d : Nat) (nodes : List Node) (i : Nat), i < 2 ^ d →
    getAt (subtreeFill nodes d) (bitsBE d i) =
      some ((nodes[i]?).getD (zeroNode 0)) := by
  intro d
  induction d with
  | zero =>
    intro nodes i hi
    have hi0 : i = 0 := by omega
    subst hi0
    have : bitsBE 0 0 = [] := rfl
    rw [this, getAt_nil]
    cases nodes <;> simp [subtreeFill]
  | succ d ih =>
    intro nodes i hi
    rw [bitsBE_succ]
    cases hb : i.testBit d
    · have hid : i < 2 ^ d := lt_of_testBit_false hi hb
      have := ih (nodes.take (2 ^ d)) i hid
      simp only [subtreeFill, getAt, Bool.false_eq_true, if_false, this,
        List.getElem?_take_of_lt hid]
    · have hge : 2 ^ d ≤ i := ge_of_testBit_true hb
      have hid : i - 2 ^ d < 2 ^ d := by
        rw [pow_succ] at hi
        omega
      have hpath : bitsBE d i = bitsBE d (i - 2 ^ d) := by
        unfold bitsBE
        apply List.map_congr_left
        intro k hk
        have hkd : k < d := List.mem_range.mp (List.mem_reverse.mp hk)
        have hi' : i = 2 ^ d + (i - 2 ^ d) := by omega
        conv_lhs => rw [hi']
        rw [Nat.testBit_two_pow_add_gt hkd]
      have := ih (nodes.drop (2 ^ d)) (i - 2 ^ d) hid
      simp only [subtreeFill, getAt, if_true, hpath, this, List.getElem?_drop]
      rw [show 2 ^ d + (i - 2 ^ d) = i by omega]

theorem activeBits_lt (l : List (Option Node)) : activeBits l < 2 ^ l.length := by
  induction l with
  | nil => simp [activeBits]
  | cons ov r ih =>
    simp only [activeBits, List.length_cons, pow_succ]
    by_cases h : ov.isSome
    · simp [h]
      omega
    · simp [h]
      omega

theorem activeBits_testBit : ∀ (l : List (Option Node)) (j : Nat),
    (activeBits l).testBit j = ((l[j]?).getD none).isSome := by
  intro l
  induction l with
  | nil =>
    intro j
    simp [activeBits, Nat.zero_testBit]
  | cons ov r ih =>
    intro j
    match j with
    | 0 =>
      simp only [activeBits, List.getElem?_cons_zero, Option.getD_some]
      exact bitCons_testBit_zero ov.isSome (activeBits r)
    | j + 1 =>
      rw [Nat.testBit_add_one, show activeBits (ov :: r) = ((if ov.isSome then 1 else 0) + 2 * activeBits r) from rfl,
        bitCons_div_two, List.getElem?_cons_succ]
      exact ih j

/-- The computation performed by a successful `stable_set` on a
StableContainer-shaped backing. -/
theorem stableSet_eq (data : Node) (bts : Bytes) (N i : Nat) (value : Option Node)
    (hnav : navOK data (get_depth N)) (hiD : i < 2 ^ get_depth N) :
    ∃ data',
      setAt data (bitsBE (get_depth N) i) (value.getD (zeroNode 0)) = some data' ∧
      stableSet (.pair data (.leaf bts)) i N value =
        some (.pair data' (bvBacking (setBitN (bytesToNatLE bts) i value.isSome))) ∧
      navOK data' (get_depth N) := by
  have hpath := gindexPath_two_pow_add hiD
  obtain ⟨data', hset, hnav'⟩ := setAt_ok (value.getD (zeroNode 0))
    (bitsBE (get_depth N) i) data (by rw [bitsBE_length]; exact hnav)
  refine ⟨data', hset, ?_, by rw [bitsBE_length] at hnav'; exact hnav'⟩
  cases value with
  | none =>
    simp only [Option.getD_none] at hset
    simp only [stableSet, afOf_pair_leaf, Node.rebindRight, Node.getLeft, Node.setter,
      hpath, hset, Node.rebindLeft, Option.isSome_none]
  | some v =>
    simp only [Option.getD_some] at hset
    simp only [stableSet, afOf_pair_leaf, Node.rebindRight, Node.getLeft, Node.setter,
      hpath, hset, Node.rebindLeft, Option.isSome_some]

/-- The presence-coherence invariant of a StableContainer backing: the
shape of the `PairNode`, a bounded bitvector with no bits at or above the
field count, and leaf `j` of the data subtree equal to `zero_node(0)`
exactly when bit `j` is clear (nonzero field backings assumed). -/
def scInv (fieldCount n : Nat) (st : Node) : Prop :=
  ∃ data a, st = .pair data (.leaf (natToBytesLE 32 a)) ∧ a < 2 ^ n ∧
    navOK data (get_depth n) ∧
    (∀ j, fieldCount ≤ j → a.testBit j = false) ∧
    (∀ j, j < 2 ^ get_depth n →
      (a.testBit j = false → getAt data (bitsBE (get_depth n) j) = some (zeroNode 0)) ∧
      (a.testBit j = true →
        ∃ x, getAt data (bitsBE (get_depth n) j) = some x ∧ x ≠ zeroNode 0))

/-- `StableContainer.__new__` establishes the invariant when every
present input has a backing other than `zero_node(0)`. -/
theorem scInv_new (n : Nat) (init : List (Option Node)) (fieldCount : Nat)
    (hlen : init.length = fieldCount) (hfc : fieldCount ≤ n)
    (hnz : ∀ ov ∈ init, ∀ v, ov = some v → v ≠ zeroNode 0) :
    scInv fieldCount n (scNew n init) := by
  unfold scNew
  refine ⟨subtreeFill (init.map (fun ov => ov.getD (zeroNode 0))) (get_depth n),
    activeBits init, rfl, ?_, navOK_subtreeFill _ _, ?_, ?_⟩
  · calc activeBits init < 2 ^ init.length := activeBits_lt init
      _ ≤ 2 ^ n := Nat.pow_le_pow_right (by norm_num) (by omega)
  · intro j hj
    rw [activeBits_testBit]
    rw [List.getElem?_eq_none (by omega)]
    rfl
  · intro j hj
    rw [getAt_subtreeFill _ _ _ hj, List.getElem?_map, activeBits_testBit]
    match hget : init[j]? with
    | none =>
      constructor
      · intro _
        rfl
      · intro hbit
        simp at hbit
    | some none =>
      constructor
      · intro _
        rfl
      · intro hbit
        simp at hbit
    | some (some v) =>
      have hv : v ≠ zeroNode 0 := hnz (some v) (List.getElem?_mem hget) v rfl
      constructor
      · intro hbit
        simp at hbit
      · intro _
        exact ⟨v, rfl, hv⟩

/-- `stable_set` preserves the invariant when the written value's backing
is not `zero_node(0)`. -/
theorem scInv_step {fieldCount n : Nat} {st st' : Node} {i : Nat}
    {value : Option Node}
    (hn256 : n ≤ 256) (hfc : fieldCount ≤ n)
    (hInv : scInv fieldCount n st) (hi : i < fieldCount)
    (hnz : ∀ v, value = some v → v ≠ zeroNode 0)
    (hset : stableSet st i n value = some st') :
    scInv fieldCount n st' := by
  obtain ⟨data, a, hst, haN, hnav, hhigh, hleaf⟩ := hInv
  subst hst
  have hiD : i < 2 ^ get_depth n :=
    lt_of_lt_of_le (lt_of_lt_of_le hi hfc) (get_depth_le n)
  have haR : bytesToNatLE (natToBytesLE 32 a) = a := by
    apply bytesToNatLE_natToBytesLE
    calc a < 2 ^ n := haN
      _ ≤ 2 ^ 256 := Nat.pow_le_pow_right (by norm_num) hn256
      _ = 256 ^ 32 := by norm_num
  obtain ⟨data', hsetAt, hSS, hnav'⟩ :=
    stableSet_eq data (natToBytesLE 32 a) n i value hnav hiD
  rw [hSS, haR] at hset
  have hst' : st' = .pair data' (bvBacking (setBitN a i value.isSome)) :=
    (Option.some.inj hset).symm
  subst hst'
  refine ⟨data', setBitN a i value.isSome, rfl,
    setBitN_lt value.isSome haN (by omega), hnav', ?_, ?_⟩
  · intro j hj
    rw [setBitN_testBit_other a i value.isSome (by omega)]
    exact hhigh j hj
  · intro j hjD
    by_cases hji : j = i
    · subst hji
      rw [setBitN_testBit_same, getAt_setAt_self hsetAt]
      cases value with
      | none =>
        constructor
        · intro _
          rfl
        · intro hbit
          simp at hbit
      | some v =>
        constructor
        · intro hbit
          simp at hbit
        · intro _
          exact ⟨v, rfl, hnz v rfl⟩
    · have hne : bitsBE (get_depth n) i ≠ bitsBE (get_depth n) j :=
        fun he => hji (bitsBE_inj hiD hjD he).symm
      have hframe := getAt_setAt_other
        (by rw [bitsBE_length, bitsBE_length]) hne hsetAt
      rw [setBitN_testBit_other a i value.isSome hji, hframe]
      exact hleaf j hjD

/-- Fold a sequence of `stable_set` operations (`__setattr__` calls) over
a backing. -/
def runOps (n : Nat) : Node → List (Nat × Option Node) → Option Node
  | st, [] => some st
  | st, (i, v) :: ops =>
    match stableSet st i n v with
    | none => none
    | some st' => runOps n st' ops

theorem runOps_inv {fieldCount n : Nat} (hn256 : n ≤ 256) (hfc : fieldCount ≤ n) :
    ∀ (ops : List (Nat × Option Node)) (st st' : Node),
    (∀ op ∈ ops, op.1 < fieldCount ∧ ∀ v, op.2 = some v → v ≠ zeroNode 0) →
    scInv fieldCount n st → runOps n st ops = some st' →
    scInv fieldCount n st' := by
  intro ops
  induction ops with
  | nil =>
    intro st st' _ hInv hrun
    cases hrun
    exact hInv
  | cons op ops ih =>
    intro st st' hops hInv hrun
    obtain ⟨i, v⟩ := op
    have hop := hops (i, v) (List.mem_cons_self _ _)
    simp only [runOps] at hrun
    match hss : stableSet st i n v with
    | none =>
      rw [hss] at hrun
      cases hrun
    | some st1 =>
      rw [hss] at hrun
      exact ih st1 st' (fun y hy => hops y (List.mem_cons_of_mem _ hy))
        (scInv_step hn256 hfc hInv hop.1 hop.2 hss) hrun

/-! ### Claim C2 -/

/-- Counterexample for C2 as stated: assigning a present value whose own
backing is the zero chunk (as e.g. `uint8(0)` produces) sets the active
bit while leaving the leaf equal to `zero_node(0)`, so "leaf `i` is
`zero_node(0)` iff bit `i` is 0" fails after this assignment. -/
theorem claim_c2_counterexample :
    stableSet (scNew 1 [none]) 0 1 (some (zeroNode 0)) =
      some (.pair (zeroNode 0) (bvBacking 1)) ∧
    (afOf (.pair (zeroNode 0) (bvBacking 1))).testBit 0 = true ∧
    scLeafAt (.pair (zeroNode 0) (bvBacking 1)) 1 0 = some (zeroNode 0) :=
  ⟨by decide, by decide, by decide⟩

/-- Claim C2 (amended): after construction from a field map and any
sequence of field assignments in which every present value has a backing
other than `zero_node(0)`, leaf `i` of the data subtree is `zero_node(0)`
iff bit `i` of the active-fields bitvector is 0, for every `i < N`. -/
theorem claim_c2_presence (n fieldCount : Nat) (init : List (Option Node))
    (ops : List (Nat × Option Node)) (st : Node)
    (hn256 : n ≤ 256) (hfc : fieldCount ≤ n) (hlen : init.length = fieldCount)
    (hinz : ∀ ov ∈ init, ∀ v, ov = some v → v ≠ zeroNode 0)
    (hops : ∀ op ∈ ops, op.1 < fieldCount ∧ ∀ v, op.2 = some v → v ≠ zeroNode 0)
    (hrun : runOps n (scNew n init) ops = some st) :
    ∀ i, i < n →
      (scLeafAt st n i = some (zeroNode 0) ↔ (afOf st).testBit i = false) := by
  have hInv := runOps_inv hn256 hfc ops (scNew n init) st hops
    (scInv_new n init fieldCount hlen hfc hinz) hrun
  obtain ⟨data, a, hst, haN, hnav, hhigh, hleaf⟩ := hInv
  subst hst
  intro i hi
  have hiD : i < 2 ^ get_depth n := lt_of_lt_of_le hi (get_depth_le n)
  have hpath := gindexPath_two_pow_add hiD
  have haR : bytesToNatLE (natToBytesLE 32 a) = a := by
    apply bytesToNatLE_natToBytesLE
    calc a < 2 ^ n := haN
      _ ≤ 2 ^ 256 := Nat.pow_le_pow_right (by norm_num) hn256
      _ = 256 ^ 32 := by norm_num
  have hafst : afOf (.pair data (.leaf (natToBytesLE 32 a))) = a := by
    rw [afOf_pair_leaf, haR]
  have hleafat : scLeafAt (.pair data (.leaf (natToBytesLE 32 a))) n i =
      getAt data (bitsBE (get_depth n) i) := by
    simp [scLeafAt, Node.getLeft, Node.getter, hpath]
  rw [hafst, hleafat]
  obtain ⟨hzero, hnonzero⟩ := hleaf i hiD
  constructor
  · intro hl
    cases hb : a.testBit i
    · rfl
    · obtain ⟨x, hx, hxne⟩ := hnonzero hb
      rw [hx] at hl
      exact absurd (Option.some.inj hl) hxne
  · exact hzero

/-- Witness for the amended C2: a `StableContainer[1]`, one assignment of
a nonzero one-chunk backing to field 0. -/
theorem claim_c2_presence_witness :
    scLeafAt (.pair (.leaf [1]) (bvBacking 1)) 1 0 = some (zeroNode 0) ↔
      (afOf (.pair (.leaf [1]) (bvBacking 1))).testBit 0 = false :=
  claim_c2_presence 1 1 [none] [(0, some (.leaf [1]))]
    (.pair (.leaf [1]) (bvBacking 1))
    (by decide) (by decide) (by decide)
    (by intro ov hov v hv; subst hv; simp at hov)
    (by
      intro op hop
      simp at hop
      subst hop
      exact ⟨by decide, by intro v hv; cases hv; decide⟩)
    (by decide) 0 (by decide)
